import Mathlib

set_option maxHeartbeats 1000000

/-!
Shallow embedding of the lieutenant command dispatcher
(`src/dispatcher.rs`): construction of the prefix-sharing command graph
(`CommandDispatcher::register`) and the iterative depth-first dispatch
(`CommandDispatcher::dispatch`), together with the properties checked
below.

The collaborating types `Argument`, `Input`, `Context` and `CommandSpec`
are declared in the crate root, which is not part of the sources here;
they are modelled from the spec (each such definition says so in its
doc comment).  The dispatcher code itself is translated directly.
-/

/-- Modelled from the spec: `Argument` (crate root, missing from the
sources) — one position in a command pattern, either a closed set of
literal token alternatives or a named, typed, pluggable parser with a
priority.  The parser's validation predicate is identified by its type
identity (`typeId`), the spec's effective structural-equality key; the
predicate itself is supplied to dispatch through a `ParserEnv`.
Structural equality (spec §3) is the derived equality: two `literal`s
with identical value lists, or two `parser`s with identical name, type
identity and priority. -/
inductive Argument where
  | literal (values : List String)
  | parser (name : String) (typeId : Nat) (priority : Nat)
deriving DecidableEq

/-- Modelled from the spec: the token cursor `Input` (crate root,
missing from the sources) — a forward-only scan position over the
command text, exposing "take next run up to a delimiter"
(`advanceUntil`) and "is input exhausted" (`isEmpty`).  The command
text is modelled as its list of delimiter-bounded tokens. -/
structure Input where
  tokens : List String
deriving DecidableEq

/-- `Input::new`: a cursor at the start of the command text. -/
def Input.new (command : List String) : Input := ⟨command⟩

/-- Modelled from the spec: advance the cursor past the next
delimiter-bounded token and return it. -/
def Input.advanceUntil : Input → String × Input
  | ⟨[]⟩ => ("", ⟨[]⟩)
  | ⟨t :: ts⟩ => (t, ⟨ts⟩)

/-- Modelled from the spec: is the input exhausted. -/
def Input.isEmpty (i : Input) : Bool := i.tokens.isEmpty

/-- Modelled from the spec: a handler (`Exec`) takes the context (by
mutable reference, modelled by returning the updated context) and the
full original command text, and returns success or failure. -/
abbrev Exec (C E O : Type) := C → List String → Except E O × C

/-- Modelled from the spec: the environment supplying the validation
predicate of each parser type identity.  A predicate reads the context,
consumes tokens from the cursor and reports success or failure
(returning the updated cursor). -/
abbrev ParserEnv (C : Type) := Nat → C → Input → Bool × Input

/-- Modelled from the spec: a command descriptor (`CommandSpec`, crate
root) — ordered `Argument` sequence, optional description, handler. -/
structure CommandSpec (C E O : Type) where
  arguments : List Argument
  description : Option String
  exec : Exec C E O

/-- `RegisterError` from `src/dispatcher.rs`. -/
inductive RegisterError where
  | overlappingCommands
  | executableRoot
deriving DecidableEq

/-- `Node` from `src/dispatcher.rs`: children keys, argument, execs.
Node keys (`NodeKey`) are slab indices; since nodes are never removed,
the slab is modelled as a list indexed by position. -/
structure Node (C E O : Type) where
  children : List Nat
  argument : Argument
  execs : List (Exec C E O)

/-- `CommandDispatcher` from `src/dispatcher.rs`: the node store, the
root's children and the list of registered commands. -/
structure CommandDispatcher (C E O : Type) where
  nodes : List (Node C E O)
  children : List Nat
  commands : List (CommandSpec C E O)

variable {C E O : Type}

/-- `CommandDispatcher::new` / `Default`. -/
def CommandDispatcher.new : CommandDispatcher C E O := ⟨[], [], []⟩

/-- Placeholder node used to totalise slab indexing; under the
invariants established by `register` every key is in bounds, so the
placeholder is never read. -/
def defaultNode : Node C E O := ⟨[], Argument.literal [], []⟩

/-- `self.nodes[key]`: slab indexing. -/
def CommandDispatcher.nodeAt (d : CommandDispatcher C E O) (k : Nat) : Node C E O :=
  d.nodes.getD k defaultNode

/-- The inner scan of `register` (lines 64-72): find the first child of
the current position whose argument is structurally equal to the one
being processed. -/
def findMatchingChild (d : CommandDispatcher C E O) (childKeys : List Nat)
    (arg : Argument) : Option Nat :=
  childKeys.find? (fun ck => decide ((d.nodeAt ck).argument = arg))

/-- Children of the current position: root children when no current
node yet (`register`, lines 59-62). -/
def childrenAt (d : CommandDispatcher C E O) : Option Nat → List Nat
  | some k => (d.nodeAt k).children
  | none => d.children

/-- The `'argument` loop of `register` (lines 58-74): walk the shared
part of the argument sequence, returning the arguments that found no
structurally equal child together with the final current node. -/
def walkShared (d : CommandDispatcher C E O) :
    List Argument → Option Nat → List Argument × Option Nat
  | [], key => ([], key)
  | arg :: rest, key =>
    match findMatchingChild d (childrenAt d key) arg with
    | some ck => walkShared d rest (some ck)
    | none => (arg :: rest, key)

/-- Lines 80-85 of `register`: push a freshly inserted node key onto
the children of the current node, or onto the root children. -/
def addChild (d : CommandDispatcher C E O) (parent : Option Nat) (ck : Nat) :
    CommandDispatcher C E O :=
  match parent with
  | some k =>
    let n := d.nodeAt k
    { d with nodes := d.nodes.set k { n with children := n.children ++ [ck] } }
  | none => { d with children := d.children ++ [ck] }

/-- The second loop of `register` (lines 76-88): append a fresh node
chain for the remaining arguments, returning the updated dispatcher and
the final current node. -/
def appendChain (d : CommandDispatcher C E O) (key : Option Nat) :
    List Argument → CommandDispatcher C E O × Option Nat
  | [] => (d, key)
  | arg :: rest =>
    let ck := d.nodes.length
    let d₁ : CommandDispatcher C E O := { d with nodes := d.nodes ++ [⟨[], arg, []⟩] }
    appendChain (addChild d₁ key ck) (some ck) rest

/-- `CommandDispatcher::register` (lines 48-101).  The Rust method
mutates `self` in place and returns a `Result`; the model returns the
result together with the post-call state. -/
def CommandDispatcher.register (d : CommandDispatcher C E O) (spec : CommandSpec C E O) :
    Except RegisterError Unit × CommandDispatcher C E O :=
  let w := walkShared d spec.arguments none
  let a := appendChain d w.2 w.1
  match a.2 with
  | none => (Except.error RegisterError.executableRoot, a.1)
  | some k =>
    let n := a.1.nodeAt k
    (Except.ok (),
      { a.1 with
          nodes := a.1.nodes.set k { n with execs := n.execs ++ [spec.exec] },
          commands := a.1.commands ++ [spec] })

/-- `CommandDispatcher::with` (lines 103-114): register and unwrap.
The `unwrap` panic is modelled as `none`. -/
def CommandDispatcher.withCommand (d : CommandDispatcher C E O)
    (spec : CommandSpec C E O) : Option (CommandDispatcher C E O) :=
  match d.register spec with
  | (Except.ok _, d') => some d'
  | (Except.error _, _) => none

/-- The per-node matching step of `dispatch` (lines 127-133): a literal
consumes the next delimiter-bounded token and satisfies iff it equals
one of the values; a parser invokes its predicate from the
environment. -/
def stepArg (env : ParserEnv C) (ctx : C) (arg : Argument) (input : Input) :
    Bool × Input :=
  match arg with
  | Argument.literal values =>
    let p := input.advanceUntil
    (values.any (fun v => v == p.1), p.2)
  | Argument.parser _ typeId _ => env typeId ctx input

/-- The exec loop of `dispatch` (lines 136-141): invoke the node's
execs in attachment order with the full original command text; the
first success short-circuits, otherwise all errors are collected in
invocation order. -/
def runExecs (cmd : List String) : List (Exec C E O) → C → Except (List E × C) (O × C)
  | [], ctx => Except.error ([], ctx)
  | e :: es, ctx =>
    match e ctx cmd with
    | (Except.ok v, ctx') => Except.ok (v, ctx')
    | (Except.error err, ctx') =>
      match runExecs cmd es ctx' with
      | Except.ok r => Except.ok r
      | Except.error (errs, ctx'') => Except.error (err :: errs, ctx'')

/-- The `while let` loop of `dispatch` (lines 125-150).  The stack is a
list whose head is the top.  The Rust loop is unbounded; `fuel` bounds
the number of iterations and `none` reports an exhausted budget (with
enough fuel this never happens on graphs built by `register`). -/
def dispatchLoop (env : ParserEnv C) (d : CommandDispatcher C E O) (cmd : List String) :
    Nat → C → List (Input × Nat) → List E → Option (Except (List E) O × C)
  | 0, _, _, _ => none
  | _ + 1, ctx, [], errors => some (Except.error errors, ctx)
  | fuel + 1, ctx, (input, k) :: rest, errors =>
    let node := d.nodeAt k
    let s := stepArg env ctx node.argument input
    if s.2.isEmpty && s.1 then
      match runExecs cmd node.execs ctx with
      | Except.ok (v, ctx') => some (Except.ok v, ctx')
      | Except.error (es, ctx') => dispatchLoop env d cmd fuel ctx' rest (errors ++ es)
    else if s.1 then
      dispatchLoop env d cmd fuel ctx
        (node.children.reverse.map (fun c => (s.2, c)) ++ rest) errors
    else
      dispatchLoop env d cmd fuel ctx rest errors

/-- `CommandDispatcher::dispatch` (lines 117-152): seed the stack with
one entry per root child (pushed in order, so the last root child is on
top) and run the search loop. -/
def CommandDispatcher.dispatch (env : ParserEnv C) (d : CommandDispatcher C E O)
    (fuel : Nat) (ctx : C) (cmd : List String) : Option (Except (List E) O × C) :=
  dispatchLoop env d cmd fuel ctx
    (d.children.reverse.map (fun c => (Input.new cmd, c))) []

/-! ### Basic facts about the registration walk -/

/-- Once the registration walk holds a current node it never loses it. -/
theorem walkShared_snd_some (d : CommandDispatcher C E O) :
    ∀ (args : List Argument) (k : Nat),
      ∃ k', (walkShared d args (some k)).2 = some k'
  | [], k => ⟨k, rfl⟩
  | arg :: rest, k => by
    unfold walkShared
    cases h : findMatchingChild d (childrenAt d (some k)) arg with
    | some ck => simpa using walkShared_snd_some d rest ck
    | none => exact ⟨k, rfl⟩

/-- If the registration walk ends with no current node, it started with
none and matched nothing. -/
theorem walkShared_snd_none (d : CommandDispatcher C E O) :
    ∀ (args : List Argument) (key : Option Nat),
      (walkShared d args key).2 = none →
      key = none ∧ (walkShared d args key).1 = args
  | [], key => by intro h; exact ⟨h, rfl⟩
  | arg :: rest, key => by
    intro h
    unfold walkShared at h ⊢
    cases hf : findMatchingChild d (childrenAt d key) arg with
    | some ck =>
      rw [hf] at h
      obtain ⟨k', hk'⟩ := walkShared_snd_some d rest ck
      simp [hk'] at h
    | none =>
      simp [hf] at h ⊢
      exact h

/-- Appending a non-empty chain always yields a current node. -/
theorem appendChain_snd_none (args : List Argument) :
    ∀ (d : CommandDispatcher C E O) (key : Option Nat),
      (appendChain d key args).2 = none → key = none ∧ args = [] := by
  induction args with
  | nil => intro d key h; exact ⟨h, rfl⟩
  | cons arg rest ih =>
    intro d key h
    unfold appendChain at h
    obtain ⟨hk, -⟩ := ih _ _ h
    simp at hk

/-- C3: registering a descriptor with an empty `Argument` sequence
fails with `ExecutableRoot` and leaves the dispatcher unchanged: no
node is added, the root children are unchanged and the descriptor is
not recorded. -/
theorem register_empty_arguments_fails (d : CommandDispatcher C E O)
    (spec : CommandSpec C E O) (h : spec.arguments = []) :
    d.register spec = (Except.error RegisterError.executableRoot, d) := by
  simp [CommandDispatcher.register, h, walkShared, appendChain]

/-- Witness for C3 at a concrete zero-argument descriptor. -/
theorem register_empty_arguments_fails_w :
    CommandDispatcher.register (CommandDispatcher.new : CommandDispatcher Nat Nat Nat)
        ⟨[], none, fun c _ => (Except.error 0, c)⟩ =
      (Except.error RegisterError.executableRoot, CommandDispatcher.new) :=
  register_empty_arguments_fails CommandDispatcher.new ⟨[], none, fun c _ => (Except.error 0, c)⟩ rfl

/-- C9: a descriptor with a non-empty `Argument` sequence always
registers successfully (so the fluent variant cannot panic on it), and
the only error `register` ever returns is `ExecutableRoot`, for a
zero-argument descriptor; `OverlappingCommands` is never produced. -/
theorem register_error_only_executableRoot (d : CommandDispatcher C E O)
    (spec : CommandSpec C E O) :
    (spec.arguments ≠ [] →
      (d.register spec).1 = Except.ok () ∧ (d.withCommand spec).isSome = true) ∧
    (∀ e, (d.register spec).1 = Except.error e →
      e = RegisterError.executableRoot ∧ spec.arguments = []) := by
  constructor
  · intro hne
    have hok : (d.register spec).1 = Except.ok () := by
      unfold CommandDispatcher.register
      cases ha : (appendChain d (walkShared d spec.arguments none).2
          (walkShared d spec.arguments none).1).2 with
      | some k => simp [ha]
      | none =>
        obtain ⟨hw, -⟩ := appendChain_snd_none _ _ _ ha
        obtain ⟨-, h1⟩ := walkShared_snd_none d spec.arguments none hw
        exact absurd (h1 ▸ (appendChain_snd_none _ _ _ ha).2) hne
    refine ⟨hok, ?_⟩
    unfold CommandDispatcher.withCommand
    rcases hr : d.register spec with ⟨res, d'⟩
    rw [hr] at hok
    simp at hok
    simp [hok]
  · intro e he
    unfold CommandDispatcher.register at he
    cases ha : (appendChain d (walkShared d spec.arguments none).2
        (walkShared d spec.arguments none).1).2 with
    | some k => simp [ha] at he
    | none =>
      simp [ha] at he
      obtain ⟨hw, -⟩ := appendChain_snd_none _ _ _ ha
      obtain ⟨-, h1⟩ := walkShared_snd_none d spec.arguments none hw
      exact ⟨he.symm, h1 ▸ (appendChain_snd_none _ _ _ ha).2⟩

/-- Witness for C9 at a concrete one-argument descriptor. -/
theorem register_error_only_executableRoot_w :
    (CommandDispatcher.register (CommandDispatcher.new : CommandDispatcher Nat Nat Nat)
        ⟨[Argument.literal ["a"]], none, fun c _ => (Except.error 0, c)⟩).1 = Except.ok () :=
  ((register_error_only_executableRoot CommandDispatcher.new
    ⟨[Argument.literal ["a"]], none, fun c _ => (Except.error 0, c)⟩).1 (by simp)).1

/-- C7: a `Literal` node satisfies iff the next delimiter-bounded token
consumed from the cursor equals (case-sensitively) one of the literal's
values, and the cursor is advanced past that token. -/
theorem literal_satisfies_iff (env : ParserEnv C) (ctx : C) (values : List String)
    (input : Input) :
    ((stepArg env ctx (Argument.literal values) input).1 = true ↔
        input.advanceUntil.1 ∈ values) ∧
    (stepArg env ctx (Argument.literal values) input).2 = input.advanceUntil.2 := by
  constructor
  · simp only [stepArg, List.any_eq_true, beq_iff_eq]
    constructor
    · rintro ⟨v, hv, rfl⟩; exact hv
    · intro hv; exact ⟨_, hv, rfl⟩
  · rfl

/-- C10: dispatch is deterministic — with the same graph, context,
command text, fuel and pointwise-identical parser predicates, two
dispatch calls return identical results. -/
theorem dispatch_deterministic (env₁ env₂ : ParserEnv C)
    (d : CommandDispatcher C E O) (fuel : Nat) (ctx : C) (cmd : List String)
    (h : ∀ t c i, env₁ t c i = env₂ t c i) :
    d.dispatch env₁ fuel ctx cmd = d.dispatch env₂ fuel ctx cmd := by
  have : env₁ = env₂ := funext fun t => funext fun c => funext fun i => h t c i
  rw [this]

/-- Witness for C10 at a concrete environment and graph. -/
theorem dispatch_deterministic_w :
    CommandDispatcher.dispatch (fun _ _ i => (false, i))
        (CommandDispatcher.new : CommandDispatcher Nat Nat Nat) 1 0 [] =
      CommandDispatcher.dispatch (fun _ _ i => (false, i)) CommandDispatcher.new 1 0 [] :=
  dispatch_deterministic (fun _ _ i => (false, i)) (fun _ _ i => (false, i))
    CommandDispatcher.new 1 0 [] (fun _ _ _ => rfl)

/-- C2: when the node on top of the stack satisfies with an exhausted
cursor, its execs are invoked in attachment order with the full
original command text: the loop step reduces to `runExecs` (returning
immediately on success, otherwise accumulating the errors and carrying
on), and a success after any failing initial segment short-circuits —
the execs after it are never consulted. -/
theorem dispatch_first_exec_success :
    (∀ (env : ParserEnv C) (d : CommandDispatcher C E O) (cmd : List String)
        (fuel : Nat) (ctx : C) (input : Input) (k : Nat)
        (rest : List (Input × Nat)) (errs : List E),
      (stepArg env ctx (d.nodeAt k).argument input).1 = true →
      (stepArg env ctx (d.nodeAt k).argument input).2.tokens = [] →
      dispatchLoop env d cmd (fuel + 1) ctx ((input, k) :: rest) errs =
        match runExecs cmd (d.nodeAt k).execs ctx with
        | Except.ok (v, ctx') => some (Except.ok v, ctx')
        | Except.error (es, ctx') => dispatchLoop env d cmd fuel ctx' rest (errs ++ es)) ∧
    (∀ (cmd : List String) (es₁ : List (Exec C E O)) (e : Exec C E O)
        (es₂ : List (Exec C E O)) (ctx : C) (errs₁ : List E) (ctx₁ : C) (v : O) (ctx₂ : C),
      runExecs cmd es₁ ctx = Except.error (errs₁, ctx₁) →
      e ctx₁ cmd = (Except.ok v, ctx₂) →
      runExecs cmd (es₁ ++ e :: es₂) ctx = Except.ok (v, ctx₂)) := by
  constructor
  · intro env d cmd fuel ctx input k rest errs hsat hemp
    rw [dispatchLoop]
    have hcond : ((stepArg env ctx (d.nodeAt k).argument input).2.isEmpty &&
        (stepArg env ctx (d.nodeAt k).argument input).1) = true := by
      rw [hsat, Input.isEmpty, hemp]; rfl
    rw [if_pos hcond]
  · intro cmd es₁
    induction es₁ with
    | nil =>
      intro e es₂ ctx errs₁ ctx₁ v ctx₂ hrun hexec
      rw [runExecs] at hrun
      injection hrun with hp
      injection hp with h1 h2
      subst h2
      rw [List.nil_append, runExecs, hexec]
    | cons f fs ih =>
      intro e es₂ ctx errs₁ ctx₁ v ctx₂ hrun hexec
      rw [runExecs] at hrun
      rw [List.cons_append, runExecs]
      rcases hf : f ctx cmd with ⟨r, ctxf⟩
      rw [hf] at hrun
      cases r with
      | ok vf => simp at hrun
      | error errf =>
        dsimp only at hrun
        cases hfs : runExecs cmd fs ctxf with
        | ok r' =>
          rw [hfs] at hrun
          simp at hrun
        | error p =>
          rcases p with ⟨errsf, ctxf'⟩
          rw [hfs] at hrun
          dsimp only at hrun
          injection hrun with hp
          injection hp with h1 h2
          subst h2
          have hr := ih e es₂ ctxf errsf ctxf' v ctx₂ hfs hexec
          simp [hr]

/-- Witness for C2: a concrete node with exhausted cursor reduces to
its exec run, and a concrete failing-then-succeeding exec list
short-circuits at the first success. -/
theorem dispatch_first_exec_success_w :
    (dispatchLoop (fun _ _ i => (false, i))
        (⟨[⟨[], Argument.literal ["a"], []⟩], [0], []⟩ : CommandDispatcher Nat Nat Nat)
        ["a"] 1 0 [(⟨["a"]⟩, 0)] [] =
      match runExecs ["a"]
          ((⟨[⟨[], Argument.literal ["a"], []⟩], [0], []⟩ :
            CommandDispatcher Nat Nat Nat).nodeAt 0).execs 0 with
      | Except.ok (v, ctx') => some (Except.ok v, ctx')
      | Except.error (es, ctx') =>
        dispatchLoop (fun _ _ i => (false, i))
          (⟨[⟨[], Argument.literal ["a"], []⟩], [0], []⟩ : CommandDispatcher Nat Nat Nat)
          ["a"] 0 ctx' [] ([] ++ es)) ∧
    runExecs ["a"]
        ([fun c _ => (Except.error 1, c + 1)] ++
          (fun c _ => (Except.ok 7, c + 2)) :: [fun c _ => (Except.error 9, c)])
        (0 : Nat) = Except.ok ((7 : Nat), (3 : Nat)) :=
  ⟨(dispatch_first_exec_success (C := Nat) (E := Nat) (O := Nat)).1
      (fun _ _ i => (false, i)) ⟨[⟨[], Argument.literal ["a"], []⟩], [0], []⟩
      ["a"] 0 0 ⟨["a"]⟩ 0 [] [] (by decide) rfl,
    (dispatch_first_exec_success (C := Nat) (E := Nat) (O := Nat)).2
      ["a"] [fun c _ => (Except.error 1, c + 1)] (fun c _ => (Except.ok 7, c + 2))
      [fun c _ => (Except.error 9, c)] 0 [1] 1 7 3 rfl rfl⟩

/-! ### An instrumented dispatch loop recording every exec invocation -/

/-- The error carried by a failed exec result. -/
def errPart : Except E O → Option E
  | Except.error e => some e
  | Except.ok _ => none

/-- One record of `dispatch` reaching the exec branch: the node, the
cursor at that moment, whether the node satisfied, and the results of
the exec invocations performed there, in invocation order. -/
structure ExecVisit (E O : Type) where
  key : Nat
  cursor : Input
  satisfied : Bool
  results : List (Except E O)

/-- `runExecs`, instrumented with the list of individual results. -/
def runExecsT (cmd : List String) : List (Exec C E O) → C → List (Except E O) × Option O × C
  | [], ctx => ([], none, ctx)
  | e :: es, ctx =>
    match e ctx cmd with
    | (Except.ok v, ctx') => ([Except.ok v], some v, ctx')
    | (Except.error err, ctx') =>
      let r := runExecsT cmd es ctx'
      (Except.error err :: r.1, r.2.1, r.2.2)

/-- `dispatchLoop`, instrumented with the list of exec visits in the
order they happen. -/
def dispatchLoopT (env : ParserEnv C) (d : CommandDispatcher C E O) (cmd : List String) :
    Nat → C → List (Input × Nat) → List E →
      Option (Except (List E) O × C) × List (ExecVisit E O)
  | 0, _, _, _ => (none, [])
  | _ + 1, ctx, [], errors => (some (Except.error errors, ctx), [])
  | fuel + 1, ctx, (input, k) :: rest, errors =>
    let node := d.nodeAt k
    let s := stepArg env ctx node.argument input
    if s.2.isEmpty && s.1 then
      let r := runExecsT cmd node.execs ctx
      let visit : ExecVisit E O := ⟨k, s.2, s.1, r.1⟩
      match r.2.1 with
      | some v => (some (Except.ok v, r.2.2), [visit])
      | none =>
        let q := dispatchLoopT env d cmd fuel r.2.2 rest (errors ++ r.1.filterMap errPart)
        (q.1, visit :: q.2)
    else if s.1 then
      dispatchLoopT env d cmd fuel ctx
        (node.children.reverse.map (fun c => (s.2, c)) ++ rest) errors
    else
      dispatchLoopT env d cmd fuel ctx rest errors

/-- `dispatch`, instrumented with the list of exec visits. -/
def dispatchT (env : ParserEnv C) (d : CommandDispatcher C E O) (fuel : Nat)
    (ctx : C) (cmd : List String) :
    Option (Except (List E) O × C) × List (ExecVisit E O) :=
  dispatchLoopT env d cmd fuel ctx
    (d.children.reverse.map (fun c => (Input.new cmd, c))) []

/-- All errors recorded by a trace, in invocation order. -/
def traceErrors : List (ExecVisit E O) → List E
  | [] => []
  | v :: vs => v.results.filterMap errPart ++ traceErrors vs

/-- The exec run is the instrumented exec run with the trace erased. -/
theorem runExecs_eq_runExecsT (cmd : List String) :
    ∀ (es : List (Exec C E O)) (ctx : C),
      runExecs cmd es ctx =
        match (runExecsT cmd es ctx).2.1 with
        | some v => Except.ok (v, (runExecsT cmd es ctx).2.2)
        | none =>
          Except.error ((runExecsT cmd es ctx).1.filterMap errPart,
            (runExecsT cmd es ctx).2.2)
  | [], ctx => rfl
  | e :: es, ctx => by
    rw [runExecs, runExecsT]
    rcases hf : e ctx cmd with ⟨r, ctx'⟩
    cases r with
    | ok v => rfl
    | error err =>
      dsimp only
      rw [runExecs_eq_runExecsT cmd es ctx']
      cases hs : (runExecsT cmd es ctx').2.1 with
      | some v => rfl
      | none => simp [errPart]

/-- The dispatch loop is the instrumented loop with the trace erased. -/
theorem dispatchLoop_eq_dispatchLoopT (env : ParserEnv C) (d : CommandDispatcher C E O)
    (cmd : List String) :
    ∀ (fuel : Nat) (ctx : C) (st : List (Input × Nat)) (errors : List E),
      dispatchLoop env d cmd fuel ctx st errors =
        (dispatchLoopT env d cmd fuel ctx st errors).1
  | 0, ctx, st, errors => rfl
  | fuel + 1, ctx, [], errors => rfl
  | fuel + 1, ctx, (input, k) :: rest, errors => by
    rw [dispatchLoop, dispatchLoopT]
    by_cases hc : ((stepArg env ctx (d.nodeAt k).argument input).2.isEmpty &&
        (stepArg env ctx (d.nodeAt k).argument input).1) = true
    · rw [if_pos hc, if_pos hc, runExecs_eq_runExecsT]
      dsimp only
      cases (runExecsT cmd (d.nodeAt k).execs ctx).2.1 with
      | some v => rfl
      | none => exact dispatchLoop_eq_dispatchLoopT env d cmd fuel _ rest _
    · rw [if_neg hc, if_neg hc]
      by_cases hs : (stepArg env ctx (d.nodeAt k).argument input).1 = true
      · rw [if_pos hs, if_pos hs]
        exact dispatchLoop_eq_dispatchLoopT env d cmd fuel ctx _ errors
      · rw [if_neg hs, if_neg hs]
        exact dispatchLoop_eq_dispatchLoopT env d cmd fuel ctx rest errors

/-- If the instrumented exec run reports a success, a success is among
its recorded results. -/
theorem runExecsT_some_mem (cmd : List String) :
    ∀ (es : List (Exec C E O)) (ctx : C) (v : O),
      (runExecsT cmd es ctx).2.1 = some v →
      Except.ok v ∈ (runExecsT cmd es ctx).1
  | [], ctx, v => by intro h; simp [runExecsT] at h
  | e :: es, ctx, v => by
    intro h
    rw [runExecsT] at h ⊢
    rcases hf : e ctx cmd with ⟨r, ctx'⟩
    rw [hf] at h
    cases r with
    | ok w =>
      dsimp only at h ⊢
      injection h with h
      simp [h]
    | error err =>
      dsimp only at h ⊢
      exact List.mem_cons_of_mem _ (runExecsT_some_mem cmd es ctx' v h)

/-- If every exec invocation recorded in the trace failed, the loop
ends with exactly the accumulated errors, in invocation order. -/
theorem dispatchLoopT_all_fail (env : ParserEnv C) (d : CommandDispatcher C E O)
    (cmd : List String) :
    ∀ (fuel : Nat) (ctx : C) (st : List (Input × Nat)) (errors : List E)
      (res : Except (List E) O) (ctxF : C) (trace : List (ExecVisit E O)),
      dispatchLoopT env d cmd fuel ctx st errors = (some (res, ctxF), trace) →
      (∀ vis ∈ trace, ∀ r ∈ vis.results, r.isOk = false) →
      res = Except.error (errors ++ traceErrors trace)
  | 0, ctx, st, errors, res, ctxF, trace => by
    intro h hfail
    cases st <;> simp [dispatchLoopT] at h
  | fuel + 1, ctx, [], errors, res, ctxF, trace => by
    intro h hfail
    rw [dispatchLoopT] at h
    injection h with h1 h2
    injection h1 with h1
    injection h1 with h1 h3
    subst h2
    rw [← h1, traceErrors, List.append_nil]
  | fuel + 1, ctx, (input, k) :: rest, errors, res, ctxF, trace => by
    intro h hfail
    rw [dispatchLoopT] at h
    by_cases hc : ((stepArg env ctx (d.nodeAt k).argument input).2.isEmpty &&
        (stepArg env ctx (d.nodeAt k).argument input).1) = true
    · rw [if_pos hc] at h
      dsimp only at h
      cases hs : (runExecsT cmd (d.nodeAt k).execs ctx).2.1 with
      | some v =>
        rw [hs] at h
        dsimp only at h
        injection h with h1 h2
        have hmem := runExecsT_some_mem cmd (d.nodeAt k).execs ctx v hs
        have := hfail _ (h2 ▸ List.mem_singleton.mpr rfl) _ hmem
        simp [Except.isOk, Except.toBool] at this
      | none =>
        rw [hs] at h
        dsimp only at h
        injection h with h1 h2
        have hq := dispatchLoopT_all_fail env d cmd fuel
          (runExecsT cmd (d.nodeAt k).execs ctx).2.2 rest
          (errors ++ ((runExecsT cmd (d.nodeAt k).execs ctx).1).filterMap errPart)
          res ctxF
          (dispatchLoopT env d cmd fuel (runExecsT cmd (d.nodeAt k).execs ctx).2.2 rest
            (errors ++ ((runExecsT cmd (d.nodeAt k).execs ctx).1).filterMap errPart)).2
          (by rw [← h1]) ?_
        · rw [hq, ← h2, traceErrors, List.append_assoc]
        · intro vis hvis r hr
          exact hfail vis (by rw [← h2]; exact List.mem_cons_of_mem _ hvis) r hr
    · rw [if_neg hc] at h
      by_cases hs : (stepArg env ctx (d.nodeAt k).argument input).1 = true
      · rw [if_pos hs] at h
        exact dispatchLoopT_all_fail env d cmd fuel ctx _ errors res ctxF trace h hfail
      · rw [if_neg hs] at h
        exact dispatchLoopT_all_fail env d cmd fuel ctx rest errors res ctxF trace h hfail

/-- C5: on any dispatch run in which no exec invocation succeeds, the
result is `Err` carrying exactly the errors produced by the exec
invocations, in invocation order — no separate "no command matched"
error exists; in particular a run with no exec invocation at all
returns `Err` with an empty error list. -/
theorem dispatch_collects_all_errors (env : ParserEnv C) (d : CommandDispatcher C E O)
    (fuel : Nat) (ctx : C) (cmd : List String) (res : Except (List E) O) (ctxF : C)
    (trace : List (ExecVisit E O))
    (h1 : dispatchT env d fuel ctx cmd = (some (res, ctxF), trace))
    (h2 : ∀ vis ∈ trace, ∀ r ∈ vis.results, r.isOk = false) :
    d.dispatch env fuel ctx cmd = some (Except.error (traceErrors trace), ctxF) ∧
    (trace = [] → d.dispatch env fuel ctx cmd = some (Except.error [], ctxF)) := by
  have hres : res = Except.error ([] ++ traceErrors trace) :=
    dispatchLoopT_all_fail env d cmd fuel ctx
      (d.children.reverse.map (fun c => (Input.new cmd, c))) [] res ctxF trace h1 h2
  rw [List.nil_append] at hres
  have hd : d.dispatch env fuel ctx cmd = some (res, ctxF) := by
    rw [CommandDispatcher.dispatch, dispatchLoop_eq_dispatchLoopT, dispatchT] at *
    rw [h1]
  constructor
  · rw [hd, hres]
  · intro ht
    rw [hd, hres, ht, traceErrors]

/-- Witness for C5: a one-node graph whose only exec fails; dispatch
returns exactly that error. -/
theorem dispatch_collects_all_errors_w :
    CommandDispatcher.dispatch (fun _ _ i => (false, i))
        (⟨[⟨[], Argument.literal ["a"], [fun c _ => (Except.error 7, c)]⟩], [0], []⟩ :
          CommandDispatcher Nat Nat Nat) 2 0 ["a"] =
      some (Except.error
        (traceErrors ([⟨0, ⟨[]⟩, true, [Except.error 7]⟩] : List (ExecVisit Nat Nat))), 0) :=
  (dispatch_collects_all_errors (fun _ _ i => (false, i))
    ⟨[⟨[], Argument.literal ["a"], [fun c _ => (Except.error 7, c)]⟩], [0], []⟩
    2 0 ["a"] (Except.error [7]) 0 [⟨0, ⟨[]⟩, true, [Except.error 7]⟩]
    rfl (by decide)).1

/-- Every exec visit recorded by the instrumented loop happens at a
node that satisfied with an exhausted cursor. -/
theorem dispatchLoopT_visits_exhausted (env : ParserEnv C) (d : CommandDispatcher C E O)
    (cmd : List String) :
    ∀ (fuel : Nat) (ctx : C) (st : List (Input × Nat)) (errors : List E),
      ∀ vis ∈ (dispatchLoopT env d cmd fuel ctx st errors).2,
        vis.cursor.tokens = [] ∧ vis.satisfied = true
  | 0, ctx, st, errors => by simp [dispatchLoopT]
  | fuel + 1, ctx, [], errors => by simp [dispatchLoopT]
  | fuel + 1, ctx, (input, k) :: rest, errors => by
    intro vis hvis
    rw [dispatchLoopT] at hvis
    by_cases hc : ((stepArg env ctx (d.nodeAt k).argument input).2.isEmpty &&
        (stepArg env ctx (d.nodeAt k).argument input).1) = true
    · rw [if_pos hc] at hvis
      dsimp only at hvis
      have hemp : (stepArg env ctx (d.nodeAt k).argument input).2.tokens = [] := by
        have := (Bool.and_eq_true _ _).mp hc
        rw [Input.isEmpty, List.isEmpty_iff] at this
        exact this.1
      have hsat : (stepArg env ctx (d.nodeAt k).argument input).1 = true :=
        ((Bool.and_eq_true _ _).mp hc).2
      cases hs : (runExecsT cmd (d.nodeAt k).execs ctx).2.1 with
      | some v =>
        rw [hs] at hvis
        dsimp only at hvis
        rcases List.mem_singleton.mp hvis with rfl
        exact ⟨hemp, hsat⟩
      | none =>
        rw [hs] at hvis
        dsimp only at hvis
        rcases List.mem_cons.mp hvis with rfl | hvis'
        · exact ⟨hemp, hsat⟩
        · exact dispatchLoopT_visits_exhausted env d cmd fuel _ rest _ vis hvis'
    · rw [if_neg hc] at hvis
      by_cases hs : (stepArg env ctx (d.nodeAt k).argument input).1 = true
      · rw [if_pos hs] at hvis
        exact dispatchLoopT_visits_exhausted env d cmd fuel ctx _ errors vis hvis
      · rw [if_neg hs] at hvis
        exact dispatchLoopT_visits_exhausted env d cmd fuel ctx rest errors vis hvis

/-- C6: during any dispatch call, execs are invoked only at nodes whose
argument satisfied with the cursor exhausted; a node left with
remaining input never has its execs invoked at that visit (trailing
unmatched tokens never trigger any exec). -/
theorem exec_invoked_only_when_exhausted (env : ParserEnv C)
    (d : CommandDispatcher C E O) (fuel : Nat) (ctx : C) (cmd : List String)
    (vis : ExecVisit E O) (hvis : vis ∈ (dispatchT env d fuel ctx cmd).2) :
    vis.cursor.tokens = [] ∧ vis.satisfied = true :=
  dispatchLoopT_visits_exhausted env d cmd fuel ctx
    (d.children.reverse.map (fun c => (Input.new cmd, c))) [] vis hvis

/-- Witness for C6 at a concrete trace entry. -/
theorem exec_invoked_only_when_exhausted_w :
    (⟨0, ⟨[]⟩, true, [Except.error 7]⟩ : ExecVisit Nat Nat).cursor.tokens = [] ∧
    (⟨0, ⟨[]⟩, true, [Except.error 7]⟩ : ExecVisit Nat Nat).satisfied = true :=
  exec_invoked_only_when_exhausted (fun _ _ i => (false, i))
    (⟨[⟨[], Argument.literal ["a"], [fun c _ => (Except.error 7, c)]⟩], [0], []⟩ :
      CommandDispatcher Nat Nat Nat) 2 0 ["a"] ⟨0, ⟨[]⟩, true, [Except.error 7]⟩
    (by
      have ht : (dispatchT (fun _ _ i => (false, i))
          (⟨[⟨[], Argument.literal ["a"], [fun c _ => (Except.error 7, c)]⟩], [0], []⟩ :
            CommandDispatcher Nat Nat Nat) 2 0 ["a"]).2 =
          [⟨0, ⟨[]⟩, true, [Except.error 7]⟩] := rfl
      rw [ht]
      exact List.mem_singleton.mpr rfl)

/-! ### The chain built for a fresh argument sequence -/

/-- The linear node chain that `appendChain` builds starting at slab
index `L`: each node points at the next, the last one carries
`tailExecs`. -/
def chainNodes (L : Nat) (tailExecs : List (Exec C E O)) : List Argument → List (Node C E O)
  | [] => []
  | [a] => [⟨[], a, tailExecs⟩]
  | a :: b :: rest => ⟨[L + 1], a, []⟩ :: chainNodes (L + 1) tailExecs (b :: rest)

/-- A current-node pointer that is in bounds. -/
def KeyOK (d : CommandDispatcher C E O) : Option Nat → Prop
  | none => True
  | some k => k < d.nodes.length

theorem addChild_commands (d : CommandDispatcher C E O) (key : Option Nat) (ck : Nat) :
    (addChild d key ck).commands = d.commands := by
  cases key <;> rfl

theorem addChild_children_eq (d : CommandDispatcher C E O) (k ck : Nat) :
    (addChild d (some k) ck).children = d.children := rfl

theorem addChild_nodes_length (d : CommandDispatcher C E O) (key : Option Nat) (ck : Nat) :
    (addChild d key ck).nodes.length = d.nodes.length := by
  cases key <;> simp [addChild]

/-- Linking a fresh key commutes with having appended a node beyond the
link target. -/
theorem addChild_append (d : CommandDispatcher C E O) (key : Option Nat) (ck : Nat)
    (x : Node C E O) (h : KeyOK d key) :
    addChild ⟨d.nodes ++ [x], d.children, d.commands⟩ key ck =
      ⟨(addChild d key ck).nodes ++ [x], (addChild d key ck).children,
        (addChild d key ck).commands⟩ := by
  cases key with
  | none => rfl
  | some k =>
    have hk : k < d.nodes.length := h
    have h1 : ((⟨d.nodes ++ [x], d.children, d.commands⟩ :
        CommandDispatcher C E O)).nodeAt k = d.nodeAt k := by
      show (d.nodes ++ [x]).getD k defaultNode = d.nodes.getD k defaultNode
      exact List.getD_append _ _ _ _ hk
    simp only [addChild, h1]
    rw [List.set_append_left _ _ hk]

/-- Updating the nodes field is the same as rebuilding the record. -/
theorem cd_update_nodes_eq (d' : CommandDispatcher C E O) (X : List (Node C E O)) :
    ({ d' with nodes := X } : CommandDispatcher C E O) = ⟨X, d'.children, d'.commands⟩ := rfl


/-- Closed form of `appendChain` on a non-empty argument list: link one
fresh chain to the current position. -/
theorem addChild_set_last (ns : List (Node C E O)) (cs : List Nat)
    (ms : List (CommandSpec C E O)) (a : Argument) (k ck : Nat) (h : k = ns.length) :
    addChild (⟨ns ++ [⟨[], a, []⟩], cs, ms⟩ : CommandDispatcher C E O) (some k) ck =
      ⟨ns ++ [⟨[ck], a, []⟩], cs, ms⟩ := by
  subst h
  have hget : ((⟨ns ++ [⟨[], a, []⟩], cs, ms⟩ :
      CommandDispatcher C E O)).nodeAt ns.length = ⟨[], a, []⟩ := by
    show (ns ++ [(⟨[], a, []⟩ : Node C E O)]).getD ns.length defaultNode = _
    rw [List.getD_append_right _ _ _ _ le_rfl]
    simp
  simp only [addChild, hget]
  rw [List.set_append_right _ _ le_rfl]
  simp

/-- Closed form of `appendChain` on a non-empty argument list: link one
fresh chain to the current position. -/
theorem appendChain_closed :
    ∀ (args : List Argument) (d : CommandDispatcher C E O) (key : Option Nat),
      args ≠ [] → KeyOK d key →
      appendChain d key args =
        (⟨(addChild d key d.nodes.length).nodes ++ chainNodes d.nodes.length [] args,
          (addChild d key d.nodes.length).children, d.commands⟩,
         some (d.nodes.length + args.length - 1))
  | [], _, _ => fun h _ => absurd rfl h
  | [a], d, key => fun _ hk => by
    rw [appendChain]
    rw [appendChain]
    rw [addChild_append d key d.nodes.length ⟨[], a, []⟩ hk]
    simp [chainNodes, addChild_commands]
  | a :: b :: rest, d, key => fun _ hk => by
    rw [appendChain]
    rw [addChild_append d key d.nodes.length ⟨[], a, []⟩ hk]
    have hA := addChild_nodes_length d key d.nodes.length
    have hk2 : KeyOK (⟨(addChild d key d.nodes.length).nodes ++ [⟨[], a, []⟩],
        (addChild d key d.nodes.length).children, (addChild d key d.nodes.length).commands⟩ :
        CommandDispatcher C E O) (some d.nodes.length) := by
      show d.nodes.length < _
      simp [hA]
    rw [appendChain_closed (b :: rest) _ (some d.nodes.length) (by simp) hk2]
    dsimp only
    have hlen1 : ((addChild d key d.nodes.length).nodes ++ [(⟨[], a, []⟩ : Node C E O)]).length
        = d.nodes.length + 1 := by simp [hA]
    rw [hlen1]
    rw [addChild_set_last _ _ _ _ _ _ hA.symm]
    rw [chainNodes]
    simp only [Prod.mk.injEq, CommandDispatcher.mk.injEq]
    refine ⟨⟨?_, trivial, ?_⟩, ?_⟩
    · rw [List.append_assoc]
      rfl
    · exact addChild_commands d key d.nodes.length
    · congr 1
      simp
      omega

theorem chainNodes_length :
    ∀ (args : List Argument) (L : Nat) (es : List (Exec C E O)),
      (chainNodes L es args).length = args.length
  | [], _, _ => rfl
  | [_], _, _ => rfl
  | a :: b :: rest, L, es => by
    rw [chainNodes]
    simp [chainNodes_length (b :: rest) (L + 1) es]

theorem getD_of_drop_eq_cons {α : Type} :
    ∀ (l : List α) (i : Nat) (a : α) (t : List α) (dflt : α),
      l.drop i = a :: t → l.getD i dflt = a
  | [], i, a, t, dflt => by intro h; simp at h
  | x :: xs, 0, a, t, dflt => by
    intro h
    injection h with h1 h2
  | x :: xs, i + 1, a, t, dflt => by
    intro h
    rw [List.drop_succ_cons] at h
    rw [List.getD_cons_succ]
    exact getD_of_drop_eq_cons xs i a t dflt h

theorem chainNodes_getD_inner :
    ∀ (args : List Argument) (L i : Nat) (es : List (Exec C E O)) (dflt : Node C E O),
      i + 1 < args.length →
      (chainNodes L es args).getD i dflt =
        ⟨[L + i + 1], args.getD i (Argument.literal []), []⟩
  | [], _, i, _, _ => by intro h; simp at h
  | [a], _, i, _, _ => by intro h; simp at h
  | a :: b :: rest, L, 0, es, dflt => by
    intro _
    rw [chainNodes]
    rfl
  | a :: b :: rest, L, j + 1, es, dflt => by
    intro h
    rw [chainNodes, List.getD_cons_succ]
    rw [chainNodes_getD_inner (b :: rest) (L + 1) j es dflt (by simp at h ⊢; omega)]
    have : L + 1 + j + 1 = L + (j + 1) + 1 := by omega
    rw [this]
    rfl

theorem chainNodes_getD_last :
    ∀ (args : List Argument) (L : Nat) (es : List (Exec C E O)) (dflt : Node C E O),
      args ≠ [] →
      (chainNodes L es args).getD (args.length - 1) dflt =
        ⟨[], args.getD (args.length - 1) (Argument.literal []), es⟩
  | [], _, _, _ => fun h => absurd rfl h
  | [a], L, es, dflt => fun _ => rfl
  | a :: b :: rest, L, es, dflt => fun _ => by
    rw [chainNodes]
    have hl : (a :: b :: rest).length - 1 = ((b :: rest).length - 1) + 1 := by
      simp
    rw [hl, List.getD_cons_succ, List.getD_cons_succ]
    exact chainNodes_getD_last (b :: rest) (L + 1) es dflt (by simp)

theorem chainNodes_set_last :
    ∀ (args : List Argument) (L : Nat) (es es' : List (Exec C E O)),
      args ≠ [] →
      (chainNodes L es args).set (args.length - 1)
          ⟨[], args.getD (args.length - 1) (Argument.literal []), es'⟩ =
        chainNodes L es' args
  | [], _, _, _ => fun h => absurd rfl h
  | [a], L, es, es' => fun _ => rfl
  | a :: b :: rest, L, es, es' => fun _ => by
    rw [chainNodes, chainNodes]
    have hl : (a :: b :: rest).length - 1 = ((b :: rest).length - 1) + 1 := by
      simp
    rw [hl, List.getD_cons_succ, List.set_cons_succ]
    rw [chainNodes_set_last (b :: rest) (L + 1) es es' (by simp)]

/-- Walking the full argument sequence of a single chain reaches its
terminal node with nothing left over. -/
theorem walkShared_chain (es : List (Exec C E O)) (whole : List Argument)
    (d : CommandDispatcher C E O) (hn : d.nodes = chainNodes 0 es whole)
    (hc : d.children = [0]) :
    ∀ (suf : List Argument) (i : Nat) (key : Option Nat),
      suf = whole.drop i → i < whole.length → childrenAt d key = [i] →
      walkShared d suf key = ([], some (whole.length - 1))
  | [], i, key => by
    intro hsuf hi _
    have := congrArg List.length hsuf
    simp [List.length_drop] at this
    omega
  | [a], i, key => by
    intro hsuf hi hch
    have hlen : whole.length - i = 1 := by
      have := congrArg List.length hsuf.symm
      simpa [List.length_drop] using this
    have hargi : whole.getD i (Argument.literal []) = a :=
      getD_of_drop_eq_cons whole i a [] (Argument.literal []) hsuf.symm
    have hnode : (d.nodeAt i).argument = a := by
      show (d.nodes.getD i defaultNode).argument = a
      rw [hn]
      have hi2 : i = whole.length - 1 := by omega
      rw [hi2, chainNodes_getD_last whole 0 es defaultNode
        (by intro h0; rw [h0] at hi; simp at hi)]
      rw [← hi2, hargi]
    have hstep : walkShared d [a] key = ([], some i) := by
      unfold walkShared
      rw [hch]
      simp [findMatchingChild, List.find?, hnode, walkShared]
    rw [hstep]
    have : i = whole.length - 1 := by omega
    rw [this]
  | a :: b :: rest, i, key => by
    intro hsuf hi hch
    have hlen : whole.length - i = rest.length + 2 := by
      have := congrArg List.length hsuf.symm
      simpa [List.length_drop] using this
    have hargi : whole.getD i (Argument.literal []) = a :=
      getD_of_drop_eq_cons whole i a (b :: rest) (Argument.literal []) hsuf.symm
    have hnodei : d.nodeAt i = ⟨[i + 1], a, []⟩ := by
      show d.nodes.getD i defaultNode = _
      rw [hn, chainNodes_getD_inner whole 0 i es defaultNode (by omega), hargi]
      simp
    have hstep : walkShared d (a :: b :: rest) key = walkShared d (b :: rest) (some i) := by
      conv_lhs => rw [walkShared.eq_def]
      dsimp only
      rw [hch]
      simp [findMatchingChild, List.find?, hnodei]
    rw [hstep]
    have hdrop : (b :: rest) = whole.drop (i + 1) := by
      have h1 : whole.drop (i + 1) = (whole.drop i).drop 1 := by
        rw [List.drop_drop]
      rw [h1, ← hsuf]
      rfl
    have hch2 : childrenAt d (some i) = [i + 1] := by
      show (d.nodeAt i).children = [i + 1]
      rw [hnodei]
    exact walkShared_chain es whole d hn hc (b :: rest) (i + 1) (some i)
      hdrop (by omega) hch2

/-- Registering a descriptor into an empty dispatcher builds exactly
one chain carrying its exec at the end. -/
theorem register_new_closed (args : List Argument) (h : args ≠ []) (dsc : Option String)
    (e : Exec C E O) :
    (CommandDispatcher.new : CommandDispatcher C E O).register ⟨args, dsc, e⟩ =
      (Except.ok (), ⟨chainNodes 0 [e] args, [0], [⟨args, dsc, e⟩]⟩) := by
  have hwalk : walkShared (CommandDispatcher.new : CommandDispatcher C E O) args none
      = (args, none) := by
    cases args with
    | nil => rfl
    | cons a rest =>
      conv_lhs => rw [walkShared.eq_def]
      dsimp only
      simp [findMatchingChild, childrenAt, CommandDispatcher.new]
  have hchain : appendChain (CommandDispatcher.new : CommandDispatcher C E O) none args =
      (⟨chainNodes 0 [] args, [0], []⟩, some (args.length - 1)) := by
    rw [appendChain_closed args (CommandDispatcher.new : CommandDispatcher C E O)
      none h trivial]
    simp [CommandDispatcher.new, addChild]
  unfold CommandDispatcher.register
  dsimp only
  rw [hwalk]
  dsimp only
  rw [hchain]
  dsimp only
  have hnode : ((⟨chainNodes 0 [] args, [0], ([] : List (CommandSpec C E O))⟩ :
      CommandDispatcher C E O)).nodeAt (args.length - 1) =
      ⟨[], args.getD (args.length - 1) (Argument.literal []), []⟩ := by
    show (chainNodes 0 [] args).getD (args.length - 1) defaultNode = _
    exact chainNodes_getD_last args 0 [] defaultNode h
  rw [hnode]
  dsimp only
  rw [show (⟨[], args.getD (args.length - 1) (Argument.literal []),
      [] ++ [e]⟩ : Node C E O) =
    ⟨[], args.getD (args.length - 1) (Argument.literal []), [e]⟩ from rfl]
  rw [chainNodes_set_last args 0 [] [e] h]
  rfl

/-- Registering the identical argument sequence into a single chain
adds no node and appends the exec to the terminal node. -/
theorem register_chain_again (whole : List Argument) (h : whole ≠ [])
    (es : List (Exec C E O)) (dsc : Option String) (e : Exec C E O)
    (cmds : List (CommandSpec C E O)) :
    (⟨chainNodes 0 es whole, [0], cmds⟩ : CommandDispatcher C E O).register
        ⟨whole, dsc, e⟩ =
      (Except.ok (), ⟨chainNodes 0 (es ++ [e]) whole, [0],
        cmds ++ [⟨whole, dsc, e⟩]⟩) := by
  have hpos : 0 < whole.length := List.length_pos.mpr h
  have hwalk : walkShared (⟨chainNodes 0 es whole, [0], cmds⟩ :
      CommandDispatcher C E O) whole none = ([], some (whole.length - 1)) :=
    walkShared_chain es whole _ rfl rfl whole 0 none (by simp) hpos rfl
  unfold CommandDispatcher.register
  dsimp only
  rw [hwalk]
  dsimp only
  rw [appendChain]
  dsimp only
  have hnode : ((⟨chainNodes 0 es whole, [0], cmds⟩ :
      CommandDispatcher C E O)).nodeAt (whole.length - 1) =
      ⟨[], whole.getD (whole.length - 1) (Argument.literal []), es⟩ := by
    show (chainNodes 0 es whole).getD (whole.length - 1) defaultNode = _
    exact chainNodes_getD_last whole 0 es defaultNode h
  rw [hnode]
  dsimp only
  rw [chainNodes_set_last whole 0 es (es ++ [e]) h]

/-- The input satisfies an argument path exactly: every argument
satisfies in turn, the cursor is non-empty strictly inside the path and
exhausted exactly after the last argument. -/
def PathSatisfies (env : ParserEnv C) (ctx : C) : List Argument → Input → Prop
  | [], _ => False
  | [a], input =>
    (stepArg env ctx a input).1 = true ∧ (stepArg env ctx a input).2.tokens = []
  | a :: b :: rest, input =>
    (stepArg env ctx a input).1 = true ∧ (stepArg env ctx a input).2.tokens ≠ [] ∧
      PathSatisfies env ctx (b :: rest) (stepArg env ctx a input).2

/-- Dispatch along a single chain whose path the input satisfies runs
exactly the terminal execs. -/
theorem dispatchLoop_chain (env : ParserEnv C) (ctx : C) (cmd : List String)
    (es : List (Exec C E O)) (whole : List Argument) (d : CommandDispatcher C E O)
    (hn : d.nodes = chainNodes 0 es whole) :
    ∀ (suf : List Argument) (i : Nat) (input : Input) (errs : List E) (fuel : Nat),
      suf = whole.drop i → i < whole.length → fuel ≥ suf.length + 1 →
      PathSatisfies env ctx suf input →
      dispatchLoop env d cmd fuel ctx [(input, i)] errs =
        match runExecs cmd es ctx with
        | Except.ok (v, ctx') => some (Except.ok v, ctx')
        | Except.error (es', ctx') => some (Except.error (errs ++ es'), ctx')
  | [], i, input, errs, fuel => by
    intro _ _ _ hsat
    exact absurd hsat (by simp [PathSatisfies])
  | [a], i, input, errs, fuel => by
    intro hsuf hi hfuel hsat
    obtain ⟨hsat1, hsat2⟩ := hsat
    have hlen : whole.length - i = 1 := by
      have := congrArg List.length hsuf.symm
      simpa [List.length_drop] using this
    have hargi : whole.getD i (Argument.literal []) = a :=
      getD_of_drop_eq_cons whole i a [] (Argument.literal []) hsuf.symm
    have hnodei : d.nodeAt i = ⟨[], a, es⟩ := by
      show d.nodes.getD i defaultNode = _
      rw [hn]
      have hi2 : i = whole.length - 1 := by omega
      rw [hi2, chainNodes_getD_last whole 0 es defaultNode
        (by intro h0; rw [h0] at hi; simp at hi), ← hi2, hargi]
    obtain ⟨f, rfl⟩ : ∃ f, fuel = f + 1 := ⟨fuel - 1, by omega⟩
    rw [dispatchLoop, hnodei]
    dsimp only
    have hcond : ((stepArg env ctx a input).2.isEmpty &&
        (stepArg env ctx a input).1) = true := by
      rw [hsat1, Input.isEmpty, hsat2]
      rfl
    rw [if_pos hcond]
    cases hrun : runExecs cmd es ctx with
    | ok p => rfl
    | error p =>
      rcases p with ⟨es', ctx'⟩
      dsimp only
      obtain ⟨g, rfl⟩ : ∃ g, f = g + 1 := ⟨f - 1, by simp at hfuel; omega⟩
      rw [dispatchLoop]
  | a :: b :: rest, i, input, errs, fuel => by
    intro hsuf hi hfuel hsat
    obtain ⟨hsat1, hsat2, hsat3⟩ := hsat
    have hlen : whole.length - i = rest.length + 2 := by
      have := congrArg List.length hsuf.symm
      simpa [List.length_drop] using this
    have hargi : whole.getD i (Argument.literal []) = a :=
      getD_of_drop_eq_cons whole i a (b :: rest) (Argument.literal []) hsuf.symm
    have hnodei : d.nodeAt i = ⟨[i + 1], a, []⟩ := by
      show d.nodes.getD i defaultNode = _
      rw [hn, chainNodes_getD_inner whole 0 i es defaultNode (by omega), hargi]
      simp
    obtain ⟨f, rfl⟩ : ∃ f, fuel = f + 1 := ⟨fuel - 1, by omega⟩
    rw [dispatchLoop, hnodei]
    dsimp only
    have hemp : (stepArg env ctx a input).2.isEmpty = false := by
      rw [Input.isEmpty]
      cases hts : (stepArg env ctx a input).2.tokens with
      | nil => exact absurd hts hsat2
      | cons t ts => rfl
    rw [if_neg (by rw [hemp]; simp)]
    rw [if_pos hsat1]
    have hdrop : (b :: rest) = whole.drop (i + 1) := by
      have h1 : whole.drop (i + 1) = (whole.drop i).drop 1 := by
        rw [List.drop_drop]
      rw [h1, ← hsuf]
      rfl
    have := dispatchLoop_chain env ctx cmd es whole d hn (b :: rest) (i + 1)
      (stepArg env ctx a input).2 errs f hdrop (by omega)
      (by simp at hfuel ⊢; omega) hsat3
    simpa using this

/-- C4: two descriptors with structurally identical argument sequences
share one terminal node carrying both handlers in attachment order; on
an input satisfying that path with exhausted cursor, dispatch tries the
first handler, then the second on its failure; the first success is
returned and two failures yield both errors in order. -/
theorem identical_paths_multiplex (env : ParserEnv C) (args : List Argument)
    (dsc₁ dsc₂ : Option String) (eA eB : Exec C E O)
    (d₁ d₂ : CommandDispatcher C E O) (h : args ≠ [])
    (h1 : (CommandDispatcher.new : CommandDispatcher C E O).register
      ⟨args, dsc₁, eA⟩ = (Except.ok (), d₁))
    (h2 : d₁.register ⟨args, dsc₂, eB⟩ = (Except.ok (), d₂)) :
    (d₂.nodeAt (args.length - 1)).execs = [eA, eB] ∧
    d₂.nodes.length = d₁.nodes.length ∧
    ∀ (ctx : C) (cmd : List String) (fuel : Nat),
      fuel ≥ args.length + 1 → PathSatisfies env ctx args (Input.new cmd) →
      d₂.dispatch env fuel ctx cmd =
        match eA ctx cmd with
        | (Except.ok v, ctx') => some (Except.ok v, ctx')
        | (Except.error e₁, ctx₁) =>
          match eB ctx₁ cmd with
          | (Except.ok v, ctx₂) => some (Except.ok v, ctx₂)
          | (Except.error e₂, ctx₂) => some (Except.error [e₁, e₂], ctx₂) := by
  rw [register_new_closed args h dsc₁ eA] at h1
  injection h1 with h1a h1b
  subst h1b
  rw [register_chain_again args h [eA] dsc₂ eB [⟨args, dsc₁, eA⟩]] at h2
  injection h2 with h2a h2b
  subst h2b
  refine ⟨?_, ?_, ?_⟩
  · show ((chainNodes 0 ([eA] ++ [eB]) args).getD (args.length - 1) defaultNode).execs
      = [eA, eB]
    rw [chainNodes_getD_last args 0 ([eA] ++ [eB]) defaultNode h]
    rfl
  · show (chainNodes 0 ([eA] ++ [eB]) args).length = (chainNodes 0 [eA] args).length
    rw [chainNodes_length, chainNodes_length]
  · intro ctx cmd fuel hfuel hsat
    have hloop := dispatchLoop_chain env ctx cmd ([eA] ++ [eB]) args
      (⟨chainNodes 0 ([eA] ++ [eB]) args, [0],
        [⟨args, dsc₁, eA⟩] ++ [⟨args, dsc₂, eB⟩]⟩ : CommandDispatcher C E O)
      rfl args 0 (Input.new cmd) [] fuel (by simp) (List.length_pos.mpr h)
      (by omega) hsat
    rw [CommandDispatcher.dispatch]
    have hseed : (((⟨chainNodes 0 ([eA] ++ [eB]) args, [0],
        [⟨args, dsc₁, eA⟩] ++ [⟨args, dsc₂, eB⟩]⟩ :
        CommandDispatcher C E O)).children.reverse.map
          (fun c => (Input.new cmd, c))) = [(Input.new cmd, 0)] := rfl
    rw [hseed, hloop]
    rcases hA : eA ctx cmd with ⟨rA, ctx₁⟩
    cases rA with
    | ok v => simp [runExecs, hA]
    | error e₁ =>
      rcases hB : eB ctx₁ cmd with ⟨rB, ctx₂⟩
      cases rB with
      | ok v => simp [runExecs, hA, hB]
      | error e₂ => simp [runExecs, hA, hB]

/-- Witness for C4: two one-argument descriptors on the same literal;
the first handler fails, the second succeeds. -/
theorem identical_paths_multiplex_w :
    CommandDispatcher.dispatch (fun _ _ i => (false, i))
        (((CommandDispatcher.new : CommandDispatcher Nat Nat Nat).register
            ⟨[Argument.literal ["go"]], none, fun c _ => (Except.error 5, c)⟩).2.register
          ⟨[Argument.literal ["go"]], none, fun c _ => (Except.ok 9, c + 1)⟩).2
        2 0 ["go"] =
      some (Except.ok 9, 1) :=
  (identical_paths_multiplex (fun _ _ i => (false, i)) [Argument.literal ["go"]]
    none none (fun c _ => (Except.error 5, c)) (fun c _ => (Except.ok 9, c + 1))
    ((CommandDispatcher.new : CommandDispatcher Nat Nat Nat).register
      ⟨[Argument.literal ["go"]], none, fun c _ => (Except.error 5, c)⟩).2
    (((CommandDispatcher.new : CommandDispatcher Nat Nat Nat).register
        ⟨[Argument.literal ["go"]], none, fun c _ => (Except.error 5, c)⟩).2.register
      ⟨[Argument.literal ["go"]], none, fun c _ => (Except.ok 9, c + 1)⟩).2
    (by simp) rfl rfl).2.2 0 ["go"] 2 (by decide) ⟨by decide, by decide⟩

/-! ### Graph-shape invariants established by registration -/

/-- Every child key is in bounds and strictly greater than its parent's
key (the root counts as smaller than every node). -/
def ChildrenBounds (d : CommandDispatcher C E O) : Prop :=
  (∀ c ∈ d.children, c < d.nodes.length) ∧
  (∀ i c, c ∈ (d.nodeAt i).children → i < c ∧ c < d.nodes.length)

/-- How many children lists mention the key `m` (root children list
included), counted with multiplicity. -/
def keyOccurrences (d : CommandDispatcher C E O) (m : Nat) : Nat :=
  d.children.count m + (d.nodes.map (fun n => n.children.count m)).sum

/-- Every node key sits in exactly one children list. -/
def UniqueParent (d : CommandDispatcher C E O) : Prop :=
  ∀ m, m < d.nodes.length → keyOccurrences d m = 1

theorem sum_set_getD (l : List Nat) :
    ∀ (k : Nat) (b : Nat), k < l.length → (l.set k b).sum + l.getD k 0 = l.sum + b := by
  induction l with
  | nil => intro k b h; simp at h
  | cons x xs ih =>
    intro k b h
    cases k with
    | zero => simp [List.set, Nat.add_comm, Nat.add_left_comm]
    | succ j =>
      have hj : j < xs.length := by simpa using h
      simp only [List.set_cons_succ, List.sum_cons, List.getD_cons_succ]
      have := ih j b hj
      omega

theorem occ_eq_zero_of_ge (d : CommandDispatcher C E O) (hb : ChildrenBounds d)
    (m : Nat) (hm : d.nodes.length ≤ m) : keyOccurrences d m = 0 := by
  unfold keyOccurrences
  have h1 : d.children.count m = 0 := by
    rw [List.count_eq_zero]
    intro hmem
    exact absurd (hb.1 m hmem) (by omega)
  have h2 : (d.nodes.map (fun n => n.children.count m)).sum = 0 := by
    apply List.sum_eq_zero
    intro x hx
    rw [List.mem_map] at hx
    obtain ⟨n, hn, rfl⟩ := hx
    rw [List.count_eq_zero]
    intro hmem
    obtain ⟨i, hi, rfl⟩ := List.mem_iff_getElem.mp hn
    have : (d.nodeAt i).children = d.nodes[i].children := by
      show (d.nodes.getD i defaultNode).children = _
      rw [List.getD_eq_getElem _ _ hi]
    have := hb.2 i m (this ▸ hmem)
    omega
  rw [h1, h2]

theorem getD_set_ne {α : Type} (l : List α) (k i : Nat) (v dflt : α) (h : i ≠ k) :
    (l.set k v).getD i dflt = l.getD i dflt := by
  rw [List.getD_eq_getElem?_getD, List.getD_eq_getElem?_getD,
    List.getElem?_set_ne (fun hk => h hk.symm)]

theorem getD_set_self_eq {α : Type} (l : List α) (k : Nat) (v dflt : α)
    (h : k < l.length) : (l.set k v).getD k dflt = v := by
  rw [List.getD_eq_getElem?_getD, List.getElem?_set_self h]
  rfl

theorem set_getD_self {α : Type} :
    ∀ (l : List α) (k : Nat) (dflt : α), k < l.length →
      l.set k (l.getD k dflt) = l
  | [], k, dflt => by intro h; simp at h
  | x :: xs, 0, dflt => by intro _; rfl
  | x :: xs, k + 1, dflt => by
    intro h
    simp only [List.getD_cons_succ, List.set_cons_succ]
    rw [set_getD_self xs k dflt (by simpa using h)]

theorem addChild_nodeAt (d : CommandDispatcher C E O) (k ck i : Nat)
    (hkl : k < d.nodes.length) :
    (addChild d (some k) ck).nodeAt i =
      if i = k then { d.nodeAt k with children := (d.nodeAt k).children ++ [ck] }
      else d.nodeAt i := by
  unfold addChild CommandDispatcher.nodeAt
  dsimp only
  by_cases hik : i = k
  · subst hik
    rw [if_pos rfl]
    exact getD_set_self_eq _ _ _ _ hkl
  · rw [if_neg hik]
    exact getD_set_ne _ _ _ _ _ hik

theorem addChild_none_nodeAt (d : CommandDispatcher C E O) (ck i : Nat) :
    (addChild d none ck).nodeAt i = d.nodeAt i := rfl

theorem addChild_occ (d : CommandDispatcher C E O) (key : Option Nat) (ck m : Nat)
    (hk : KeyOK d key) :
    keyOccurrences (addChild d key ck) m = keyOccurrences d m + List.count m [ck] := by
  cases key with
  | none =>
    simp only [keyOccurrences, addChild, List.count_append]
    omega
  | some k =>
    have hkl : k < d.nodes.length := hk
    simp only [keyOccurrences, addChild]
    rw [List.map_set]
    have hsum := sum_set_getD (d.nodes.map (fun n => n.children.count m)) k
      (({ d.nodeAt k with children := (d.nodeAt k).children ++ [ck] } :
        Node C E O).children.count m) (by simpa using hkl)
    have hgd : (d.nodes.map (fun n => n.children.count m)).getD k 0 =
        (d.nodeAt k).children.count m := by
      have h0 : (0 : Nat) = (fun (n : Node C E O) => n.children.count m) defaultNode := by
        simp [defaultNode]
      rw [h0, List.getD_map]
      rfl
    rw [hgd] at hsum
    dsimp only at hsum ⊢
    simp only [List.count_append] at hsum ⊢
    omega

theorem chain_occ :
    ∀ (args : List Argument) (L : Nat) (es : List (Exec C E O)) (m : Nat),
      ((chainNodes L es args).map (fun n => n.children.count m)).sum =
        if L < m ∧ m < L + args.length then 1 else 0
  | [], L, es, m => by
    rw [chainNodes]
    simp only [List.map_nil, List.sum_nil, List.length_nil]
    rw [if_neg (by omega)]
  | [a], L, es, m => by
    rw [chainNodes]
    simp only [List.map_cons, List.map_nil, List.sum_cons, List.sum_nil,
      List.count_nil, List.length_cons, List.length_nil]
    rw [if_neg (by omega)]
    omega
  | a :: b :: rest, L, es, m => by
    rw [chainNodes]
    simp only [List.map_cons, List.sum_cons]
    rw [chain_occ (b :: rest) (L + 1) es m]
    have hcount : List.count m [L + 1] = if m = L + 1 then 1 else 0 := by
      by_cases hm : m = L + 1 <;> simp [hm, List.count_cons]
    rw [hcount]
    simp only [List.length_cons]
    split_ifs <;> omega

theorem chain_children_bounds :
    ∀ (args : List Argument) (L : Nat) (es : List (Exec C E O)) (i c : Nat),
      c ∈ ((chainNodes L es args).getD i defaultNode).children →
      L + i < c ∧ c < L + args.length
  | [], L, es, i, c => by
    intro hmem
    rw [chainNodes] at hmem
    simp [defaultNode] at hmem
  | [a], L, es, i, c => by
    intro hmem
    rw [chainNodes] at hmem
    cases i with
    | zero => simp at hmem
    | succ j => simp [defaultNode] at hmem
  | a :: b :: rest, L, es, i, c => by
    intro hmem
    rw [chainNodes] at hmem
    cases i with
    | zero =>
      simp at hmem
      subst hmem
      simp
    | succ j =>
      rw [List.getD_cons_succ] at hmem
      have := chain_children_bounds (b :: rest) (L + 1) es j c hmem
      simp at this ⊢
      omega

theorem appendChain_preserves (args : List Argument) (d : CommandDispatcher C E O)
    (key : Option Nat) (h : args ≠ []) (hk : KeyOK d key)
    (hb : ChildrenBounds d) (hu : UniqueParent d) :
    ChildrenBounds (appendChain d key args).1 ∧ UniqueParent (appendChain d key args).1 := by
  rw [appendChain_closed args d key h hk]
  have hA : (addChild d key d.nodes.length).nodes.length = d.nodes.length :=
    addChild_nodes_length d key d.nodes.length
  have hlen : args.length ≥ 1 := by
    cases args with
    | nil => exact absurd rfl h
    | cons x xs => simp
  have htot : ((addChild d key d.nodes.length).nodes ++
      chainNodes d.nodes.length [] args).length = d.nodes.length + args.length := by
    rw [List.length_append, hA, chainNodes_length]
  constructor
  · constructor
    · intro c hc
      show c < ((addChild d key d.nodes.length).nodes ++
        chainNodes d.nodes.length [] args).length
      rw [htot]
      cases key with
      | none =>
        have hc' : c ∈ d.children ++ [d.nodes.length] := hc
        rcases List.mem_append.mp hc' with h1 | h1
        · have := hb.1 c h1
          omega
        · simp at h1
          omega
      | some k =>
        have hc' : c ∈ d.children := hc
        have := hb.1 c hc'
        omega
    · intro i c hmem
      have hmem' : c ∈ (((addChild d key d.nodes.length).nodes ++
          chainNodes d.nodes.length [] args).getD i defaultNode).children := hmem
      show i < c ∧ c < ((addChild d key d.nodes.length).nodes ++
        chainNodes d.nodes.length [] args).length
      rw [htot]
      by_cases hi : i < d.nodes.length
      · rw [List.getD_append _ _ _ _ (by omega)] at hmem'
        cases key with
        | none =>
          have heq : (addChild d none d.nodes.length).nodes = d.nodes := rfl
          rw [heq] at hmem'
          have := hb.2 i c hmem'
          omega
        | some k =>
          have hkl : k < d.nodes.length := hk
          have hmem2 : c ∈ ((addChild d (some k) d.nodes.length).nodeAt i).children := hmem'
          rw [addChild_nodeAt d k d.nodes.length i hkl] at hmem2
          by_cases hik : i = k
          · rw [if_pos hik] at hmem2
            dsimp only at hmem2
            rcases List.mem_append.mp hmem2 with h1 | h1
            · have := hb.2 k c (hik ▸ h1)
              omega
            · simp at h1
              omega
          · rw [if_neg hik] at hmem2
            have := hb.2 i c hmem2
            omega
      · by_cases hi2 : i < d.nodes.length + args.length
        · rw [List.getD_append_right _ _ _ _ (by omega)] at hmem'
          rw [hA] at hmem'
          have := chain_children_bounds args d.nodes.length [] (i - d.nodes.length) c hmem'
          omega
        · rw [List.getD_eq_default _ _ (by omega)] at hmem'
          simp [defaultNode] at hmem'
  · intro m hm
    rw [htot] at hm
    have hocc : keyOccurrences (⟨(addChild d key d.nodes.length).nodes ++
        chainNodes d.nodes.length [] args,
        (addChild d key d.nodes.length).children, d.commands⟩ :
        CommandDispatcher C E O) m =
        keyOccurrences (addChild d key d.nodes.length) m +
          ((chainNodes d.nodes.length ([] : List (Exec C E O)) args).map
            (fun n => n.children.count m)).sum := by
      simp only [keyOccurrences, List.map_append, List.sum_append]
      omega
    rw [hocc, addChild_occ d key d.nodes.length m hk,
      chain_occ args d.nodes.length ([] : List (Exec C E O)) m]
    have hcnt : List.count m [d.nodes.length] = if m = d.nodes.length then 1 else 0 := by
      by_cases hm2 : m = d.nodes.length <;> simp [hm2, List.count_cons]
    rw [hcnt]
    by_cases h1 : m < d.nodes.length
    · rw [hu m h1, if_neg (by omega), if_neg (by omega)]
    · rw [occ_eq_zero_of_ge d hb m (by omega)]
      by_cases h2 : m = d.nodes.length
      · rw [if_pos h2, if_neg (by omega)]
      · rw [if_neg h2, if_pos (by omega)]

theorem walkShared_key_ok (d : CommandDispatcher C E O) (hb : ChildrenBounds d) :
    ∀ (args : List Argument) (key : Option Nat), KeyOK d key →
      KeyOK d (walkShared d args key).2
  | [], key => fun hk => hk
  | arg :: rest, key => fun hk => by
    cases hf : findMatchingChild d (childrenAt d key) arg with
    | some ck =>
      have hck : ck ∈ childrenAt d key := List.mem_of_find?_eq_some hf
      have hlt : ck < d.nodes.length := by
        cases key with
        | none => exact hb.1 ck hck
        | some k => exact (hb.2 k ck hck).2
      have hstep : walkShared d (arg :: rest) key = walkShared d rest (some ck) := by
        conv_lhs => rw [walkShared.eq_def]
        dsimp only
        rw [hf]
      rw [hstep]
      exact walkShared_key_ok d hb rest (some ck) hlt
    | none =>
      have hstep : walkShared d (arg :: rest) key = (arg :: rest, key) := by
        conv_lhs => rw [walkShared.eq_def]
        dsimp only
        rw [hf]
      rw [hstep]
      exact hk

theorem inv_exec_set (d : CommandDispatcher C E O) (k : Nat) (es2 : List (Exec C E O))
    (cs2 : List (CommandSpec C E O)) (hb : ChildrenBounds d) (hu : UniqueParent d) :
    ChildrenBounds (⟨d.nodes.set k { d.nodeAt k with execs := es2 }, d.children, cs2⟩ :
      CommandDispatcher C E O) ∧
    UniqueParent (⟨d.nodes.set k { d.nodeAt k with execs := es2 }, d.children, cs2⟩ :
      CommandDispatcher C E O) := by
  by_cases hkl : k < d.nodes.length
  · have hnodeAt : ∀ i, ((⟨d.nodes.set k { d.nodeAt k with execs := es2 }, d.children,
        cs2⟩ : CommandDispatcher C E O).nodeAt i).children = (d.nodeAt i).children := by
      intro i
      by_cases hik : i = k
      · subst hik
        show ((d.nodes.set i { d.nodeAt i with execs := es2 }).getD i
          defaultNode).children = _
        rw [getD_set_self_eq _ _ _ _ hkl]
      · show ((d.nodes.set k { d.nodeAt k with execs := es2 }).getD i
          defaultNode).children = _
        rw [getD_set_ne _ _ _ _ _ hik]
        rfl
    have hlen2 : (d.nodes.set k { d.nodeAt k with execs := es2 }).length =
        d.nodes.length := List.length_set _ _ _
    constructor
    · constructor
      · intro c hc
        show c < (d.nodes.set k _).length
        rw [hlen2]
        exact hb.1 c hc
      · intro i c hmem
        rw [hnodeAt i] at hmem
        have := hb.2 i c hmem
        show i < c ∧ c < (d.nodes.set k _).length
        rw [hlen2]
        exact this
    · intro m hm
      rw [hlen2] at hm
      have hocc : keyOccurrences (⟨d.nodes.set k { d.nodeAt k with execs := es2 },
          d.children, cs2⟩ : CommandDispatcher C E O) m = keyOccurrences d m := by
        unfold keyOccurrences
        dsimp only
        rw [List.map_set]
        dsimp only
        have h0 : List.count m (d.nodeAt k).children =
            (d.nodes.map (fun n => n.children.count m)).getD k 0 := by
          have h1 : (0 : Nat) = (fun (n : Node C E O) => n.children.count m)
              defaultNode := by simp [defaultNode]
          rw [h1, List.getD_map]
          rfl
        rw [h0, set_getD_self _ _ _ (by simpa using hkl)]
      rw [hocc]
      exact hu m hm
  · rw [List.set_eq_of_length_le (by omega)]
    exact ⟨⟨hb.1, hb.2⟩, hu⟩

theorem register_preserves_inv (d : CommandDispatcher C E O) (spec : CommandSpec C E O)
    (hb : ChildrenBounds d) (hu : UniqueParent d) :
    ChildrenBounds (d.register spec).2 ∧ UniqueParent (d.register spec).2 := by
  unfold CommandDispatcher.register
  dsimp only
  have hkeyok : KeyOK d (walkShared d spec.arguments none).2 :=
    walkShared_key_ok d hb spec.arguments none trivial
  by_cases hrem : (walkShared d spec.arguments none).1 = []
  · rw [hrem]
    have hid : appendChain d (walkShared d spec.arguments none).2 [] =
        (d, (walkShared d spec.arguments none).2) := rfl
    rw [hid]
    cases hk2 : (walkShared d spec.arguments none).2 with
    | none => exact ⟨hb, hu⟩
    | some k => exact inv_exec_set d k _ _ hb hu
  · have hA := appendChain_preserves (walkShared d spec.arguments none).1 d
      (walkShared d spec.arguments none).2 hrem hkeyok hb hu
    cases ha2 : (appendChain d (walkShared d spec.arguments none).2
        (walkShared d spec.arguments none).1).2 with
    | none => exact hA
    | some k =>
      exact inv_exec_set (appendChain d (walkShared d spec.arguments none).2
        (walkShared d spec.arguments none).1).1 k _ _ hA.1 hA.2

/-- Any sequence of register calls starting from the empty dispatcher
(the calls of `CommandDispatcher::register` made during setup). -/
def registerAll (specs : List (CommandSpec C E O)) : CommandDispatcher C E O :=
  specs.foldl (fun d s => (d.register s).2) CommandDispatcher.new

/-- Reachability along parent-to-child edges of the graph. -/
inductive Reaches (d : CommandDispatcher C E O) : Nat → Nat → Prop where
  | step (i j : Nat) : j ∈ (d.nodeAt i).children → Reaches d i j
  | trans (i j k : Nat) : Reaches d i j → Reaches d j k → Reaches d i k

theorem Reaches.lt {d : CommandDispatcher C E O} (hb : ChildrenBounds d)
    {i j : Nat} (h : Reaches d i j) : i < j := by
  induction h with
  | step i j hj => exact (hb.2 i j hj).1
  | trans i j k h1 h2 ih1 ih2 => omega

theorem registerAll_inv (specs : List (CommandSpec C E O)) :
    ChildrenBounds (registerAll specs) ∧ UniqueParent (registerAll specs) := by
  have hgen : ∀ (l : List (CommandSpec C E O)) (d : CommandDispatcher C E O),
      ChildrenBounds d → UniqueParent d →
      ChildrenBounds (l.foldl (fun d s => (d.register s).2) d) ∧
      UniqueParent (l.foldl (fun d s => (d.register s).2) d) := by
    intro l
    induction l with
    | nil => intro d hb hu; exact ⟨hb, hu⟩
    | cons s rest ih =>
      intro d hb hu
      have := register_preserves_inv d s hb hu
      exact ih _ this.1 this.2
  refine hgen specs CommandDispatcher.new ⟨?_, ?_⟩ ?_
  · intro c hc
    simp [CommandDispatcher.new] at hc
  · intro i c hmem
    simp [CommandDispatcher.nodeAt, CommandDispatcher.new, defaultNode] at hmem
  · intro m hm
    simp [CommandDispatcher.new] at hm

/-- C8: after any sequence of register calls from the empty dispatcher
the graph is a forest: every child key is in bounds and strictly larger
than its parent (so the graph is acyclic — no node reaches itself), and
every node key occurs in exactly one children list (root children or
one node's children), so no node has two parents. -/
theorem register_graph_is_forest (specs : List (CommandSpec C E O)) :
    ChildrenBounds (registerAll specs) ∧ UniqueParent (registerAll specs) ∧
    ∀ k, ¬ Reaches (registerAll specs) k k := by
  obtain ⟨hb, hu⟩ := registerAll_inv specs
  exact ⟨hb, hu, fun k hk => absurd (Reaches.lt hb hk) (lt_irrefl k)⟩

/-! ### Stability of already-registered walks under further registration -/

/-- `d'` extends `d`: all old nodes keep their argument, their children
lists only grow at the end, and the root children only grow at the
end. -/
def Extends (d d' : CommandDispatcher C E O) : Prop :=
  d.nodes.length ≤ d'.nodes.length ∧
  (∃ suf, d'.children = d.children ++ suf) ∧
  ∀ i, i < d.nodes.length →
    (d'.nodeAt i).argument = (d.nodeAt i).argument ∧
    ∃ suf, (d'.nodeAt i).children = (d.nodeAt i).children ++ suf

theorem extends_refl (d : CommandDispatcher C E O) : Extends d d :=
  ⟨le_rfl, ⟨[], by simp⟩, fun i _ => ⟨rfl, ⟨[], by simp⟩⟩⟩

theorem extends_trans {d d' d'' : CommandDispatcher C E O}
    (h1 : Extends d d') (h2 : Extends d' d'') : Extends d d'' := by
  refine ⟨le_trans h1.1 h2.1, ?_, ?_⟩
  · obtain ⟨s1, hs1⟩ := h1.2.1
    obtain ⟨s2, hs2⟩ := h2.2.1
    exact ⟨s1 ++ s2, by rw [hs2, hs1, List.append_assoc]⟩
  · intro i hi
    have hi' : i < d'.nodes.length := lt_of_lt_of_le hi h1.1
    obtain ⟨ha1, s1, hs1⟩ := h1.2.2 i hi
    obtain ⟨ha2, s2, hs2⟩ := h2.2.2 i hi'
    exact ⟨ha2.trans ha1, ⟨s1 ++ s2, by rw [hs2, hs1, List.append_assoc]⟩⟩

theorem find?_congr_mem {α : Type} (p q : α → Bool) :
    ∀ (l : List α), (∀ x ∈ l, p x = q x) → List.find? p l = List.find? q l
  | [] => fun _ => rfl
  | a :: as => fun h => by
    rw [List.find?_cons, List.find?_cons, h a (List.mem_cons_self a as)]
    cases hqa : q a
    · exact find?_congr_mem p q as (fun x hx => h x (List.mem_cons_of_mem a hx))
    · rfl

/-- A successful child lookup survives when the graph is extended: the
searched children list only grew at the end and the old nodes kept
their arguments. -/
theorem findMatchingChild_extends (d d' : CommandDispatcher C E O) (hE : Extends d d')
    (cs : List Nat) (hcs : ∀ c ∈ cs, c < d.nodes.length) (suf : List Nat)
    (arg : Argument) (ck : Nat) (hf : findMatchingChild d cs arg = some ck) :
    findMatchingChild d' (cs ++ suf) arg = some ck := by
  have hsame : findMatchingChild d' cs arg = some ck := by
    rw [findMatchingChild] at hf ⊢
    rw [find?_congr_mem _ (fun ck => decide ((d.nodeAt ck).argument = arg)) cs ?_]
    · exact hf
    · intro c hc
      have := (hE.2.2 c (hcs c hc)).1
      simp [this]
  rw [findMatchingChild, List.find?_append]
  rw [findMatchingChild] at hsame
  rw [hsame]
  rfl

/-- Walking a concatenation first walks the left part; if it is fully
matched the walk continues into the right part. -/
theorem walkShared_append (d : CommandDispatcher C E O) :
    ∀ (xs ys : List Argument) (key : Option Nat),
      walkShared d (xs ++ ys) key =
        if (walkShared d xs key).1 = [] then walkShared d ys (walkShared d xs key).2
        else ((walkShared d xs key).1 ++ ys, (walkShared d xs key).2)
  | [], ys, key => by simp [walkShared]
  | x :: xs, ys, key => by
    rw [List.cons_append]
    cases hf : findMatchingChild d (childrenAt d key) x with
    | some ck =>
      have hstep : ∀ (zs : List Argument), walkShared d (x :: zs) key =
          walkShared d zs (some ck) := by
        intro zs
        conv_lhs => rw [walkShared.eq_def]
        dsimp only
        rw [hf]
      rw [hstep (xs ++ ys), hstep xs]
      exact walkShared_append d xs ys (some ck)
    | none =>
      have hstep : ∀ (zs : List Argument), walkShared d (x :: zs) key =
          (x :: zs, key) := by
        intro zs
        conv_lhs => rw [walkShared.eq_def]
        dsimp only
        rw [hf]
      rw [hstep (xs ++ ys), hstep xs]
      simp

/-- The unmatched remainder of a walk is a suffix of the walked
arguments. -/
theorem walkShared_remainder_suffix (d : CommandDispatcher C E O) :
    ∀ (args : List Argument) (key : Option Nat),
      ∃ matched, args = matched ++ (walkShared d args key).1
  | [], key => ⟨[], rfl⟩
  | arg :: rest, key => by
    cases hf : findMatchingChild d (childrenAt d key) arg with
    | some ck =>
      have hstep : walkShared d (arg :: rest) key = walkShared d rest (some ck) := by
        conv_lhs => rw [walkShared.eq_def]
        dsimp only
        rw [hf]
      obtain ⟨m, hm⟩ := walkShared_remainder_suffix d rest (some ck)
      exact ⟨arg :: m, by rw [hstep, List.cons_append, ← hm]⟩
    | none =>
      have hstep : walkShared d (arg :: rest) key = (arg :: rest, key) := by
        conv_lhs => rw [walkShared.eq_def]
        dsimp only
        rw [hf]
      refine ⟨[], ?_⟩
      rw [hstep]
      rfl

/-- A fully matched walk is preserved, with the same end node, by any
extension of the graph. -/
theorem walkShared_full_extends (d d' : CommandDispatcher C E O) (hE : Extends d d')
    (hb : ChildrenBounds d) :
    ∀ (args : List Argument) (key : Option Nat), KeyOK d key →
      (walkShared d args key).1 = [] →
      walkShared d' args key = ([], (walkShared d args key).2)
  | [], key => fun _ _ => by simp [walkShared]
  | arg :: rest, key => fun hk hfull => by
    cases hf : findMatchingChild d (childrenAt d key) arg with
    | none =>
      have hstep : walkShared d (arg :: rest) key = (arg :: rest, key) := by
        conv_lhs => rw [walkShared.eq_def]
        dsimp only
        rw [hf]
      rw [hstep] at hfull
      simp at hfull
    | some ck =>
      have hstep : walkShared d (arg :: rest) key = walkShared d rest (some ck) := by
        conv_lhs => rw [walkShared.eq_def]
        dsimp only
        rw [hf]
      have hcs : ∀ c ∈ childrenAt d key, c < d.nodes.length := by
        intro c hc
        cases key with
        | none => exact hb.1 c hc
        | some k => exact (hb.2 k c hc).2
      obtain ⟨suf, hsuf⟩ : ∃ suf, childrenAt d' key = childrenAt d key ++ suf := by
        cases key with
        | none => exact hE.2.1
        | some k => exact (hE.2.2 k hk).2
      have hf' : findMatchingChild d' (childrenAt d' key) arg = some ck := by
        rw [hsuf]
        exact findMatchingChild_extends d d' hE (childrenAt d key) hcs suf arg ck hf
      have hstep' : walkShared d' (arg :: rest) key = walkShared d' rest (some ck) := by
        conv_lhs => rw [walkShared.eq_def]
        dsimp only
        rw [hf']
      rw [hstep', hstep]
      rw [hstep] at hfull
      have hcklt : ck < d.nodes.length :=
        hcs ck (List.mem_of_find?_eq_some hf)
      exact walkShared_full_extends d d' hE hb rest (some ck) hcklt hfull

theorem exec_set_extends (d : CommandDispatcher C E O) (k : Nat)
    (es2 : List (Exec C E O)) (cs2 : List (CommandSpec C E O)) :
    Extends d (⟨d.nodes.set k { d.nodeAt k with execs := es2 }, d.children, cs2⟩ :
      CommandDispatcher C E O) := by
  refine ⟨by simp [List.length_set], ⟨[], by simp⟩, ?_⟩
  intro i hi
  by_cases hik : i = k
  · subst hik
    have hg : ((⟨d.nodes.set i { d.nodeAt i with execs := es2 }, d.children, cs2⟩ :
        CommandDispatcher C E O)).nodeAt i = { d.nodeAt i with execs := es2 } := by
      show (d.nodes.set i { d.nodeAt i with execs := es2 }).getD i defaultNode = _
      exact getD_set_self_eq _ _ _ _ hi
    rw [hg]
    exact ⟨rfl, ⟨[], by simp⟩⟩
  · have hg : ((⟨d.nodes.set k { d.nodeAt k with execs := es2 }, d.children, cs2⟩ :
        CommandDispatcher C E O)).nodeAt i = d.nodeAt i := by
      show (d.nodes.set k { d.nodeAt k with execs := es2 }).getD i defaultNode = _
      exact getD_set_ne _ _ _ _ _ hik
    rw [hg]
    exact ⟨rfl, ⟨[], by simp⟩⟩

theorem chain_link_extends (d : CommandDispatcher C E O) (key : Option Nat)
    (args : List Argument) (es : List (Exec C E O)) (cs : List (CommandSpec C E O))
    (hk : KeyOK d key) :
    Extends d (⟨(addChild d key d.nodes.length).nodes ++
      chainNodes d.nodes.length es args,
      (addChild d key d.nodes.length).children, cs⟩ :
        CommandDispatcher C E O) := by
  refine ⟨?_, ?_, ?_⟩
  · show d.nodes.length ≤ ((addChild d key d.nodes.length).nodes ++
      chainNodes d.nodes.length es args).length
    rw [List.length_append, addChild_nodes_length]
    omega
  · cases key with
    | none => exact ⟨[d.nodes.length], rfl⟩
    | some k => exact ⟨[], by simp [addChild_children_eq]⟩
  · intro i hi
    have hgi : ((⟨(addChild d key d.nodes.length).nodes ++
        chainNodes d.nodes.length es args,
        (addChild d key d.nodes.length).children, cs⟩ :
        CommandDispatcher C E O)).nodeAt i = (addChild d key d.nodes.length).nodeAt i := by
      show ((addChild d key d.nodes.length).nodes ++
        chainNodes d.nodes.length es args).getD i defaultNode = _
      rw [List.getD_append _ _ _ _ (by rw [addChild_nodes_length]; omega)]
      rfl
    rw [hgi]
    cases key with
    | none => exact ⟨rfl, ⟨[], by simp [addChild_none_nodeAt]⟩⟩
    | some k =>
      have hkl : k < d.nodes.length := hk
      rw [addChild_nodeAt d k d.nodes.length i hkl]
      by_cases hik : i = k
      · subst hik
        rw [if_pos rfl]
        exact ⟨rfl, ⟨[d.nodes.length], rfl⟩⟩
      · rw [if_neg hik]
        exact ⟨rfl, ⟨[], by simp⟩⟩

theorem register_extends (d : CommandDispatcher C E O) (spec : CommandSpec C E O)
    (hb : ChildrenBounds d) : Extends d (d.register spec).2 := by
  unfold CommandDispatcher.register
  dsimp only
  have hkeyok := walkShared_key_ok d hb spec.arguments none trivial
  by_cases hrem : (walkShared d spec.arguments none).1 = []
  · rw [hrem]
    have hid : appendChain d (walkShared d spec.arguments none).2 [] =
        (d, (walkShared d spec.arguments none).2) := rfl
    rw [hid]
    cases hk2 : (walkShared d spec.arguments none).2 with
    | none => exact extends_refl d
    | some k => exact exec_set_extends d k _ _
  · rw [appendChain_closed _ d _ hrem hkeyok]
    dsimp only
    exact extends_trans (chain_link_extends d _ _ _ _ hkeyok) (exec_set_extends _ _ _ _)

theorem register_nodes_length (d : CommandDispatcher C E O) (spec : CommandSpec C E O)
    (hb : ChildrenBounds d) :
    (d.register spec).2.nodes.length =
      d.nodes.length + (walkShared d spec.arguments none).1.length := by
  unfold CommandDispatcher.register
  dsimp only
  have hkeyok := walkShared_key_ok d hb spec.arguments none trivial
  by_cases hrem : (walkShared d spec.arguments none).1 = []
  · rw [hrem]
    have hid : appendChain d (walkShared d spec.arguments none).2 [] =
        (d, (walkShared d spec.arguments none).2) := rfl
    rw [hid]
    cases hk2 : (walkShared d spec.arguments none).2 with
    | none => simp
    | some k => simp [List.length_set]
  · rw [appendChain_closed _ d _ hrem hkeyok]
    dsimp only
    simp [List.length_set, List.length_append, addChild_nodes_length, chainNodes_length]

theorem chainNodes_getD_argument (args : List Argument) (L i : Nat)
    (es : List (Exec C E O)) (dflt : Node C E O) (h : i < args.length) :
    ((chainNodes L es args).getD i dflt).argument = args.getD i (Argument.literal []) := by
  by_cases hl : i + 1 = args.length
  · have hi2 : i = args.length - 1 := by omega
    rw [hi2, chainNodes_getD_last args L es dflt
      (by intro h0; rw [h0] at h; simp at h)]
  · rw [chainNodes_getD_inner args L i es dflt (by omega)]

theorem walkShared_chain_at (d : CommandDispatcher C E O) (pre : List (Node C E O))
    (rem : List Argument) (es : List (Exec C E O))
    (hn : d.nodes = pre ++ chainNodes pre.length es rem) :
    ∀ (suf : List Argument) (j : Nat),
      suf = rem.drop (j + 1) → j < rem.length →
      walkShared d suf (some (pre.length + j)) =
        ([], some (pre.length + rem.length - 1))
  | [], j => by
    intro hsuf hj
    have hlen : rem.length ≤ j + 1 := by
      have := congrArg List.length hsuf
      simp [List.length_drop] at this
      omega
    have heq : pre.length + j = pre.length + rem.length - 1 := by omega
    simp only [walkShared]
    rw [heq]
  | b :: suf', j => by
    intro hsuf hj
    have hj1 : j + 1 < rem.length := by
      have := congrArg List.length hsuf
      simp [List.length_drop] at this
      omega
    have hnodej : d.nodeAt (pre.length + j) =
        ⟨[pre.length + j + 1], rem.getD j (Argument.literal []), []⟩ := by
      show d.nodes.getD (pre.length + j) defaultNode = _
      rw [hn, List.getD_append_right _ _ _ _ (by omega)]
      have heq : pre.length + j - pre.length = j := by omega
      rw [heq, chainNodes_getD_inner rem pre.length j es defaultNode hj1]
    have hargb : rem.getD (j + 1) (Argument.literal []) = b :=
      getD_of_drop_eq_cons rem (j + 1) b suf' _ hsuf.symm
    have hnodej1arg : (d.nodeAt (pre.length + j + 1)).argument = b := by
      show (d.nodes.getD (pre.length + j + 1) defaultNode).argument = _
      rw [hn, List.getD_append_right _ _ _ _ (by omega)]
      have heq : pre.length + j + 1 - pre.length = j + 1 := by omega
      rw [heq, chainNodes_getD_argument rem pre.length (j + 1) es defaultNode hj1, hargb]
    have hch : childrenAt d (some (pre.length + j)) = [pre.length + j + 1] := by
      show (d.nodeAt (pre.length + j)).children = _
      rw [hnodej]
    have hfind : findMatchingChild d [pre.length + j + 1] b =
        some (pre.length + j + 1) := by
      simp [findMatchingChild, List.find?, hnodej1arg]
    have hstep : walkShared d (b :: suf') (some (pre.length + j)) =
        walkShared d suf' (some (pre.length + j + 1)) := by
      conv_lhs => rw [walkShared.eq_def]
      dsimp only
      rw [hch, hfind]
    rw [hstep]
    have hdrop : suf' = rem.drop (j + 1 + 1) := by
      have h1 : rem.drop (j + 1 + 1) = (rem.drop (j + 1)).drop 1 := by
        rw [List.drop_drop]
      rw [h1, ← hsuf]
      rfl
    have hrec := walkShared_chain_at d pre rem es hn suf' (j + 1) hdrop (by omega)
    have heq : pre.length + (j + 1) = pre.length + j + 1 := by omega
    rw [heq] at hrec
    exact hrec

/-- Closed form of a registration whose walk left a non-empty
remainder: one fresh chain carrying the exec at its end is linked at
the divergence point. -/
theorem register_closed_chain (d : CommandDispatcher C E O) (spec : CommandSpec C E O)
    (hrem : (walkShared d spec.arguments none).1 ≠ [])
    (hkeyok : KeyOK d (walkShared d spec.arguments none).2) :
    d.register spec = (Except.ok (),
      ⟨(addChild d (walkShared d spec.arguments none).2 d.nodes.length).nodes ++
        chainNodes d.nodes.length [spec.exec] (walkShared d spec.arguments none).1,
        (addChild d (walkShared d spec.arguments none).2 d.nodes.length).children,
        d.commands ++ [spec]⟩) := by
  unfold CommandDispatcher.register
  dsimp only
  rw [appendChain_closed _ d _ hrem hkeyok]
  dsimp only
  have hAlen := addChild_nodes_length d (walkShared d spec.arguments none).2 d.nodes.length
  have hlen1 : 0 < (walkShared d spec.arguments none).1.length :=
    List.length_pos.mpr hrem
  have hnodet : ((⟨(addChild d (walkShared d spec.arguments none).2 d.nodes.length).nodes ++
      chainNodes d.nodes.length [] (walkShared d spec.arguments none).1,
      (addChild d (walkShared d spec.arguments none).2 d.nodes.length).children,
      d.commands⟩ : CommandDispatcher C E O)).nodeAt
        (d.nodes.length + (walkShared d spec.arguments none).1.length - 1) =
      ⟨[], (walkShared d spec.arguments none).1.getD
        ((walkShared d spec.arguments none).1.length - 1) (Argument.literal []), []⟩ := by
    show ((addChild d (walkShared d spec.arguments none).2 d.nodes.length).nodes ++
      chainNodes d.nodes.length [] (walkShared d spec.arguments none).1).getD
        (d.nodes.length + (walkShared d spec.arguments none).1.length - 1)
        defaultNode = _
    rw [List.getD_append_right _ _ _ _ (by omega)]
    have heq : d.nodes.length + (walkShared d spec.arguments none).1.length - 1 -
        (addChild d (walkShared d spec.arguments none).2 d.nodes.length).nodes.length =
        (walkShared d spec.arguments none).1.length - 1 := by
      rw [hAlen]
      omega
    rw [heq]
    exact chainNodes_getD_last _ _ _ _ hrem
  rw [hnodet]
  dsimp only
  have hset : ((addChild d (walkShared d spec.arguments none).2 d.nodes.length).nodes ++
      chainNodes d.nodes.length [] (walkShared d spec.arguments none).1).set
        (d.nodes.length + (walkShared d spec.arguments none).1.length - 1)
        ⟨[], (walkShared d spec.arguments none).1.getD
          ((walkShared d spec.arguments none).1.length - 1) (Argument.literal []),
          [] ++ [spec.exec]⟩ =
      (addChild d (walkShared d spec.arguments none).2 d.nodes.length).nodes ++
        chainNodes d.nodes.length [spec.exec] (walkShared d spec.arguments none).1 := by
    rw [List.set_append_right _ _ (by omega)]
    have heq : d.nodes.length + (walkShared d spec.arguments none).1.length - 1 -
        (addChild d (walkShared d spec.arguments none).2 d.nodes.length).nodes.length =
        (walkShared d spec.arguments none).1.length - 1 := by
      rw [hAlen]
      omega
    rw [heq]
    rw [show ([] : List (Exec C E O)) ++ [spec.exec] = [spec.exec] from rfl]
    rw [chainNodes_set_last _ _ _ _ hrem]
  rw [hset]

/-- After a successful registration, walking the registered argument
sequence from the root finds a complete chain. -/
theorem register_walk_full (d : CommandDispatcher C E O) (spec : CommandSpec C E O)
    (hb : ChildrenBounds d) (d' : CommandDispatcher C E O)
    (hreg : d.register spec = (Except.ok (), d')) :
    ∃ t, walkShared d' spec.arguments none = ([], some t) := by
  have hkeyok := walkShared_key_ok d hb spec.arguments none trivial
  by_cases hrem : (walkShared d spec.arguments none).1 = []
  · unfold CommandDispatcher.register at hreg
    dsimp only at hreg
    rw [hrem] at hreg
    have hid : appendChain d (walkShared d spec.arguments none).2 [] =
        (d, (walkShared d spec.arguments none).2) := rfl
    rw [hid] at hreg
    cases hk2 : (walkShared d spec.arguments none).2 with
    | none =>
      rw [hk2] at hreg
      dsimp only at hreg
      exact absurd (congrArg Prod.fst hreg) (by simp)
    | some k =>
      rw [hk2] at hreg
      dsimp only at hreg
      have hd' : d' = ⟨d.nodes.set k { d.nodeAt k with execs :=
          (d.nodeAt k).execs ++ [spec.exec] }, d.children, d.commands ++ [spec]⟩ :=
        (congrArg Prod.snd hreg).symm
      have hE : Extends d d' := by
        rw [hd']
        exact exec_set_extends d k _ _
      have hw := walkShared_full_extends d d' hE hb spec.arguments none trivial hrem
      rw [hk2] at hw
      exact ⟨k, hw⟩
  · rw [register_closed_chain d spec hrem hkeyok] at hreg
    have hd' : d' = ⟨(addChild d (walkShared d spec.arguments none).2
        d.nodes.length).nodes ++ chainNodes d.nodes.length [spec.exec]
        (walkShared d spec.arguments none).1,
        (addChild d (walkShared d spec.arguments none).2 d.nodes.length).children,
        d.commands ++ [spec]⟩ := (congrArg Prod.snd hreg).symm
    have hnodes : d'.nodes = (addChild d (walkShared d spec.arguments none).2
        d.nodes.length).nodes ++ chainNodes d.nodes.length [spec.exec]
        (walkShared d spec.arguments none).1 := by rw [hd']
    have hchildren : d'.children = (addChild d (walkShared d spec.arguments none).2
        d.nodes.length).children := by rw [hd']
    have hAlen := addChild_nodes_length d (walkShared d spec.arguments none).2
      d.nodes.length
    obtain ⟨r, rem', hremc⟩ : ∃ r rem',
        (walkShared d spec.arguments none).1 = r :: rem' := by
      cases h : (walkShared d spec.arguments none).1 with
      | nil => exact absurd h hrem
      | cons a b => exact ⟨a, b, rfl⟩
    obtain ⟨matched, hdecomp⟩ := walkShared_remainder_suffix d spec.arguments none
    have happ := walkShared_append d matched (walkShared d spec.arguments none).1 none
    rw [← hdecomp] at happ
    by_cases hm1 : (walkShared d matched none).1 = []
    swap
    · rw [if_neg hm1] at happ
      have h1 : (walkShared d spec.arguments none).1 =
          (walkShared d matched none).1 ++ (walkShared d spec.arguments none).1 := by
        conv_lhs => rw [happ]
      have h2 := congrArg List.length h1
      rw [List.length_append] at h2
      have h3 : (walkShared d matched none).1.length = 0 := by omega
      exact absurd (List.length_eq_zero.mp h3) hm1
    · rw [if_pos hm1] at happ
      cases hf : findMatchingChild d
          (childrenAt d (walkShared d matched none).2) r with
      | some ck =>
        have hstep : walkShared d (walkShared d spec.arguments none).1
            (walkShared d matched none).2 = walkShared d rem' (some ck) := by
          rw [hremc]
          conv_lhs => rw [walkShared.eq_def]
          dsimp only
          rw [hf]
        rw [hstep] at happ
        obtain ⟨m2, hm2⟩ := walkShared_remainder_suffix d rem' (some ck)
        have h1 : (walkShared d rem' (some ck)).1 =
            (walkShared d spec.arguments none).1 := by rw [← happ]
        rw [h1, hremc] at hm2
        have h2 := congrArg List.length hm2
        simp [List.length_append] at h2
        omega
      | none =>
        have hstep : walkShared d (walkShared d spec.arguments none).1
            (walkShared d matched none).2 =
            ((walkShared d spec.arguments none).1,
              (walkShared d matched none).2) := by
          rw [hremc]
          conv_lhs => rw [walkShared.eq_def]
          dsimp only
          rw [hf]
        rw [hstep] at happ
        have hkm : (walkShared d spec.arguments none).2 =
            (walkShared d matched none).2 := by rw [happ]
        have hE : Extends d d' := by
          rw [hd']
          exact chain_link_extends d _ _ _ _ hkeyok
        have hwm := walkShared_full_extends d d' hE hb matched none trivial hm1
        have happ2 := walkShared_append d' matched
          (walkShared d spec.arguments none).1 none
        rw [← hdecomp, hwm] at happ2
        have happ3 : walkShared d' spec.arguments none =
            walkShared d' (walkShared d spec.arguments none).1
              (walkShared d matched none).2 := by
          rw [happ2]
          exact if_pos rfl
        have hch2 : childrenAt d' (walkShared d matched none).2 =
            childrenAt d (walkShared d matched none).2 ++ [d.nodes.length] := by
          rw [← hkm]
          cases hk0 : (walkShared d spec.arguments none).2 with
          | none =>
            show d'.children = d.children ++ [d.nodes.length]
            rw [hchildren, hk0]
            rfl
          | some k =>
            show (d'.nodeAt k).children = (d.nodeAt k).children ++ [d.nodes.length]
            have hkb : k < d.nodes.length := by
              have h9 := hkeyok
              rw [hk0] at h9
              exact h9
            have hk1 : d'.nodeAt k =
                (addChild d (some k) d.nodes.length).nodeAt k := by
              show d'.nodes.getD k defaultNode = _
              rw [hnodes, hk0]
              rw [List.getD_append _ _ _ _ (by
                rw [addChild_nodes_length]
                omega)]
              rfl
            rw [hk1, addChild_nodeAt d k d.nodes.length k hkb, if_pos rfl]
        have hstopall := List.find?_eq_none.mp hf
        have hfind2 : findMatchingChild d'
            (childrenAt d' (walkShared d matched none).2) r =
            some d.nodes.length := by
          rw [hch2, findMatchingChild, List.find?_append]
          have hnone : List.find? (fun ck => decide ((d'.nodeAt ck).argument = r))
              (childrenAt d (walkShared d matched none).2) = none := by
            rw [List.find?_eq_none]
            intro c hc
            have hcb : c < d.nodes.length := by
              cases hkmm : (walkShared d matched none).2 with
              | none =>
                rw [hkmm] at hc
                exact hb.1 c hc
              | some k2 =>
                rw [hkmm] at hc
                exact (hb.2 k2 c hc).2
            have harg : (d'.nodeAt c).argument = (d.nodeAt c).argument :=
              (hE.2.2 c hcb).1
            have hp := hstopall c hc
            simp only [findMatchingChild] at hp
            simp [harg]
            simp at hp
            exact hp
          rw [hnone]
          have hargL : (d'.nodeAt d.nodes.length).argument = r := by
            show (d'.nodes.getD d.nodes.length defaultNode).argument = r
            rw [hnodes]
            rw [List.getD_append_right _ _ _ _ (by omega)]
            have heq0 : d.nodes.length -
                (addChild d (walkShared d spec.arguments none).2
                  d.nodes.length).nodes.length = 0 := by
              rw [hAlen]
              omega
            rw [heq0, chainNodes_getD_argument _ _ _ _ _ (by rw [hremc]; simp)]
            rw [hremc]
            rfl
          simp [List.find?, hargL]
        have hstep2 : walkShared d' (walkShared d spec.arguments none).1
            (walkShared d matched none).2 =
            walkShared d' rem' (some d.nodes.length) := by
          rw [hremc]
          conv_lhs => rw [walkShared.eq_def]
          dsimp only
          rw [hfind2]
        have hn : d'.nodes = (addChild d (walkShared d spec.arguments none).2
            d.nodes.length).nodes ++ chainNodes ((addChild d
            (walkShared d spec.arguments none).2 d.nodes.length).nodes).length
            [spec.exec] (walkShared d spec.arguments none).1 := by
          rw [hnodes, hAlen]
        have hchain := walkShared_chain_at d' _ _ _ hn rem' 0
          (by rw [hremc]; simp) (by rw [hremc]; simp)
        rw [hAlen] at hchain
        simp only [Nat.add_zero] at hchain
        refine ⟨d.nodes.length + (walkShared d spec.arguments none).1.length - 1, ?_⟩
        rw [happ3, hstep2, hchain]

/-- C1: two descriptors sharing a non-empty structurally-equal argument
prefix share one node chain for that prefix. After registering A (with
arguments p ++ aRest), the whole prefix p walks to existing nodes
(remainder empty), registering B (with arguments p ++ bRest) leaves that
walk unchanged (so B reuses the prefix chain and creates no duplicate
prefix nodes), and the nodes B adds are exactly the unmatched remainder
of its own walk — at most bRest, i.e. divergence starts only at B's
first argument without a structurally equal child. -/
theorem register_shares_common_chain (d₀ : CommandDispatcher C E O)
    (hb : ChildrenBounds d₀) (hu : UniqueParent d₀)
    (p aRest bRest : List Argument) (hp : p ≠ [])
    (dsc₁ dsc₂ : Option String) (eA eB : Exec C E O)
    (d₁ d₂ : CommandDispatcher C E O)
    (h1 : d₀.register ⟨p ++ aRest, dsc₁, eA⟩ = (Except.ok (), d₁))
    (h2 : d₁.register ⟨p ++ bRest, dsc₂, eB⟩ = (Except.ok (), d₂)) :
    (walkShared d₁ p none).1 = [] ∧
    walkShared d₂ p none = walkShared d₁ p none ∧
    (walkShared d₁ (p ++ bRest) none).1.length ≤ bRest.length ∧
    d₂.nodes.length = d₁.nodes.length +
      (walkShared d₁ (p ++ bRest) none).1.length := by
  have hd1 : (d₀.register ⟨p ++ aRest, dsc₁, eA⟩).2 = d₁ := congrArg Prod.snd h1
  have hd2 : (d₁.register ⟨p ++ bRest, dsc₂, eB⟩).2 = d₂ := congrArg Prod.snd h2
  have hinv₁ := register_preserves_inv d₀ ⟨p ++ aRest, dsc₁, eA⟩ hb hu
  rw [hd1] at hinv₁
  have hb₁ : ChildrenBounds d₁ := hinv₁.1
  have hfull1 : (walkShared d₁ p none).1 = [] := by
    by_contra hc1
    obtain ⟨t, ht⟩ := register_walk_full d₀ ⟨p ++ aRest, dsc₁, eA⟩ hb d₁ h1
    rw [walkShared_append d₁ p aRest none, if_neg hc1] at ht
    have hfst := congrArg Prod.fst ht
    dsimp only at hfst
    rw [List.append_eq_nil] at hfst
    exact hc1 hfst.1
  have hE₂ : Extends d₁ d₂ := by
    rw [← hd2]
    exact register_extends d₁ ⟨p ++ bRest, dsc₂, eB⟩ hb₁
  have hw2 := walkShared_full_extends d₁ d₂ hE₂ hb₁ p none trivial hfull1
  have hw1 : walkShared d₁ p none = ([], (walkShared d₁ p none).2) := by
    rw [← hfull1]
  have hwalkB : walkShared d₁ (p ++ bRest) none =
      walkShared d₁ bRest (walkShared d₁ p none).2 := by
    rw [walkShared_append d₁ p bRest none, if_pos hfull1]
  refine ⟨hfull1, hw2.trans hw1.symm, ?_, ?_⟩
  · rw [hwalkB]
    obtain ⟨m, hm⟩ := walkShared_remainder_suffix d₁ bRest (walkShared d₁ p none).2
    have hlen := congrArg List.length hm
    rw [List.length_append] at hlen
    omega
  · have hn := register_nodes_length d₁ ⟨p ++ bRest, dsc₂, eB⟩ hb₁
    rw [hd2] at hn
    exact hn

def specAw : CommandSpec Nat Nat Nat :=
  ⟨[Argument.literal ["home"], Argument.literal ["set"]], none,
    fun c _ => (Except.ok 1, c)⟩

def specBw : CommandSpec Nat Nat Nat :=
  ⟨[Argument.literal ["home"], Argument.literal ["list"]], none,
    fun c _ => (Except.ok 2, c)⟩

def d1w : CommandDispatcher Nat Nat Nat := (CommandDispatcher.new.register specAw).2

def d2w : CommandDispatcher Nat Nat Nat := (d1w.register specBw).2

/-- Witness for C1 at the concrete commands "home set" and "home list"
sharing the prefix [literal "home"]. -/
theorem register_shares_common_chain_w :
    (walkShared d1w [Argument.literal ["home"]] none).1 = [] ∧
    walkShared d2w [Argument.literal ["home"]] none =
      walkShared d1w [Argument.literal ["home"]] none ∧
    (walkShared d1w ([Argument.literal ["home"]] ++ [Argument.literal ["list"]])
      none).1.length ≤ [Argument.literal ["list"]].length ∧
    d2w.nodes.length = d1w.nodes.length +
      (walkShared d1w ([Argument.literal ["home"]] ++ [Argument.literal ["list"]])
        none).1.length :=
  register_shares_common_chain CommandDispatcher.new
    (registerAll_inv ([] : List (CommandSpec Nat Nat Nat))).1
    (registerAll_inv ([] : List (CommandSpec Nat Nat Nat))).2
    [Argument.literal ["home"]] [Argument.literal ["set"]] [Argument.literal ["list"]]
    (by simp) none none (fun c _ => (Except.ok 1, c)) (fun c _ => (Except.ok 2, c))
    d1w d2w rfl rfl
